import Mathlib

/-!
# xprin test-execution runner: golden-file assertions and input staging

A shallow embedding of `internal/testexecution/runner` (`assertions.go`,
`assertions_diff.go`, `assertions_dyff.go`, `patches.go`).

Go `string` and `[]byte` values are byte sequences (`List UInt8`).  The Go
standard-library and third-party functions the runner calls (`strings`,
`path/filepath`, `fmt`, `github.com/pmezard/go-difflib/difflib`) are written
out after their published sources, for a Unix build (path separator `/`, no
volume names).  The YAML, dyff and patch-xr libraries are parameters
(`DyffLib`, `PatchLib`); `patchXR` threads the filesystem state and logs its
effects.
-/

namespace Runner

/-! ## Byte strings -/

/-- A Go `string` or `[]byte`: a finite sequence of bytes. -/
abbrev GoString := List UInt8

/-- The bytes of an ASCII string literal of the source. -/
def lit (s : String) : GoString := s.toList.map (fun c => UInt8.ofNat c.toNat)

/-- The newline byte `'\n'`. -/
def nl : UInt8 := 10

/-- Function `strings.HasPrefix(s, p)`. -/
def stringsHasPrefix (s p : GoString) : Bool := p.isPrefixOf s

/-- Function `strings.Contains(s, sub)`: `sub` occurs in `s` as a contiguous run of bytes. -/
def stringsContains (s sub : GoString) : Prop := sub <:+: s

instance (s sub : GoString) : Decidable (stringsContains s sub) := by
  unfold stringsContains; infer_instance

/-- Function `strings.TrimSuffix(s, suffix)`. -/
def stringsTrimSuffix (s suffix : GoString) : GoString :=
  if suffix <:+ s then s.take (s.length - suffix.length) else s

/-- Function `strings.Split(s, sep)` for a one-byte separator: the pieces of `s` between
occurrences of `sep` (always at least one piece). -/
def stringsSplit (sep : UInt8) : GoString → List GoString
  | [] => [[]]
  | c :: cs =>
    if c = sep then [] :: stringsSplit sep cs
    else
      match stringsSplit sep cs with
      | [] => [[c]]
      | l :: ls => (c :: l) :: ls

/-- Function `strings.Join(elems, sep)` for a one-byte separator. -/
def stringsJoin (sep : UInt8) : List GoString → GoString
  | [] => []
  | [l] => l
  | l :: l2 :: ls => l ++ sep :: stringsJoin sep (l2 :: ls)

/-- Function `strings.SplitAfter(s, "\n")`: like `Split`, but every piece except the last keeps
its terminating newline. -/
def stringsSplitAfter : GoString → List GoString
  | [] => [[]]
  | c :: cs =>
    if c = nl then [c] :: stringsSplitAfter cs
    else
      match stringsSplitAfter cs with
      | [] => [[c]]
      | l :: ls => (c :: l) :: ls

/-! ## `fmt` -/

/-- The decimal digits of `n`, least significant first; `fuel` bounds the number of digits. -/
def digitsRev : Nat → Nat → List UInt8
  | 0, _ => []
  | fuel + 1, n =>
    if n < 10 then [UInt8.ofNat (48 + n)]
    else UInt8.ofNat (48 + n % 10) :: digitsRev fuel (n / 10)

/-- The verb `%d` of `fmt.Sprintf` on a non-negative integer. -/
def fmtInt (n : Nat) : GoString := (digitsRev (n + 1) n).reverse

/-! ## `path/filepath` (Unix) -/

/-- Function `os.IsPathSeparator`. -/
def isPathSeparator (c : UInt8) : Bool := c == 47

/-- Function `filepath.Base`: the last element of the path, after removing trailing slashes;
`"."` for the empty path and `"/"` for a path of slashes only. -/
def filepathBase (path : GoString) : GoString :=
  if path = [] then lit "."
  else
    let path := path.rdropWhile isPathSeparator
    let path := path.rtakeWhile (fun c => !isPathSeparator c)
    if path = [] then lit "/" else path

/-- The loop of `filepath.Ext`, walking from the last byte towards the first: `rev` holds the
bytes not yet visited (last first), `acc` the bytes already passed. -/
def extLoop : List UInt8 → List UInt8 → GoString
  | [], _ => []
  | c :: rev, acc =>
    if isPathSeparator c then []
    else if c = 46 then c :: acc
    else extLoop rev (c :: acc)

/-- Function `filepath.Ext`: the suffix beginning at the final dot of the final path element,
empty when there is none. -/
def filepathExt (path : GoString) : GoString := extLoop path.reverse []

/-! ## `patches.go`: collision-free naming -/

/-- The loop body of `uniqueBaseNamesForPaths` over the remaining paths; `nameCount` is the
map from stem to the number of occurrences seen so far (absent keys read as `0`). -/
def uniqueBaseNamesLoop : List GoString → (GoString → Nat) → List GoString
  | [], _ => []
  | p :: ps, nameCount =>
    let base := filepathBase p
    let ext := filepathExt base
    let nameWithoutExt := stringsTrimSuffix base ext
    let n := nameCount nameWithoutExt
    let nameCount := Function.update nameCount nameWithoutExt (n + 1)
    let base := if n > 0 then nameWithoutExt ++ lit "_" ++ fmtInt n ++ ext else base
    base :: uniqueBaseNamesLoop ps nameCount

/-- Function `uniqueBaseNamesForPaths`; a nil slice is `none`. -/
def uniqueBaseNamesForPaths : Option (List GoString) → Option (List GoString)
  | none => none
  | some paths => some (uniqueBaseNamesLoop paths (fun _ => 0))

/-! ## `difflib` (github.com/pmezard/go-difflib)

The library is a dependency of the repository, not part of it; `formatDiffMessageUnified`
calls `difflib.SplitLines` and `difflib.GetUnifiedDiffString`.  The functions below follow
the library's `difflib.go` one by one: `SequenceMatcher` as `NewMatcher` builds it (no junk
predicate, `IsJunk == nil`, so `bJunk` is empty; `autoJunk` on), `GetMatchingBlocks`,
`GetOpCodes`, `GetGroupedOpCodes` and `WriteUnifiedDiff`.  The maps `b2j` and `j2len` are
functions from keys to values (an absent key reads as the zero value).  Slice indexing is
always in range in the source; here a read out of range gives the empty string. -/

/-- Function `difflib.SplitLines`: `strings.SplitAfter(s, "\n")` with a newline appended to the
last piece. -/
def splitLines (s : GoString) : List GoString :=
  let lines := stringsSplitAfter s
  lines.dropLast ++ [lines.getLastD [] ++ [nl]]

/-- Type `difflib.Match`. -/
structure Match where
  A : Nat
  B : Nat
  Size : Nat
  deriving DecidableEq, Repr

/-- Type `difflib.OpCode`; `Tag` is one of `'r'`, `'d'`, `'i'`, `'e'`. -/
structure OpCode where
  Tag : Char
  I1 : Nat
  I2 : Nat
  J1 : Nat
  J2 : Nat
  deriving DecidableEq, Repr

/-- The positions `n`, `n+1`, ... at which `s` occurs in `b`, ascending. -/
def indicesOf (s : GoString) : Nat → List GoString → List Nat
  | _, [] => []
  | n, x :: xs => if x = s then n :: indicesOf s (n + 1) xs else indicesOf s (n + 1) xs

/-- The map `b2j` that `chainB` builds, read at key `s`: the indices of `s` in `b`, unless
`chainB` purged `s` as popular (`len(b) >= 200` and more than `len(b)/100 + 1` occurrences). -/
def b2j (b : List GoString) (s : GoString) : List Nat :=
  let indices := indicesOf s 0 b
  let n := b.length
  if n ≥ 200 ∧ indices.length > n / 100 + 1 then [] else indices

/-- Method `isBJunk`: membership in `bJunk`, which is empty. -/
def isBJunk (_ : GoString) : Bool := false

/-- The inner loop of `findLongestMatch` over the indices `j` of `a[i]` in `b`; the state is
`newj2len` and the best match so far.  `continue` below `blo`, `break` from `bhi` on. -/
def innerLoop (blo bhi i : Nat) (j2len : Int → Nat) :
    List Nat → (Int → Nat) × Match → (Int → Nat) × Match
  | [], st => st
  | j :: js, (newj2len, best) =>
    if j < blo then innerLoop blo bhi i j2len js (newj2len, best)
    else if j ≥ bhi then (newj2len, best)
    else
      let k := j2len ((j : Int) - 1) + 1
      let newj2len := Function.update newj2len (j : Int) k
      let best := if k > best.Size then ⟨i + 1 - k, j + 1 - k, k⟩ else best
      innerLoop blo bhi i j2len js (newj2len, best)

/-- The outer loop of `findLongestMatch` over `i = alo, ..., ahi-1`. -/
def outerLoop (a b : List GoString) (blo bhi : Nat) : List Nat → (Int → Nat) → Match → Match
  | [], _, best => best
  | i :: is, j2len, best =>
    let st := innerLoop blo bhi i j2len (b2j b (a.getD i [])) (fun _ => 0, best)
    outerLoop a b blo bhi is st.1 st.2

/-- The two loops of `findLongestMatch` that extend the match to the left, by non-junk
(`junk = false`) and then by junk (`junk = true`) elements. -/
def extendLeft (a b : List GoString) (alo blo : Nat) (junk : Bool) : Nat → Nat → Nat → Match
  | 0, bestj, bestsize => ⟨0, bestj, bestsize⟩
  | besti + 1, bestj, bestsize =>
    if besti + 1 > alo ∧ bestj > blo ∧ isBJunk (b.getD (bestj - 1) []) = junk
        ∧ a.getD besti [] = b.getD (bestj - 1) [] then
      extendLeft a b alo blo junk besti (bestj - 1) (bestsize + 1)
    else ⟨besti + 1, bestj, bestsize⟩

/-- The two loops of `findLongestMatch` that extend the match to the right; `fuel` is
`ahi - (besti + bestsize)`, the number of iterations the loop condition allows. -/
def extendRight (a b : List GoString) (ahi bhi : Nat) (junk : Bool) (besti bestj : Nat) :
    Nat → Nat → Nat
  | 0, bestsize => bestsize
  | fuel + 1, bestsize =>
    if besti + bestsize < ahi ∧ bestj + bestsize < bhi
        ∧ isBJunk (b.getD (bestj + bestsize) []) = junk
        ∧ a.getD (besti + bestsize) [] = b.getD (bestj + bestsize) [] then
      extendRight a b ahi bhi junk besti bestj fuel (bestsize + 1)
    else bestsize

/-- Method `findLongestMatch`. -/
def findLongestMatch (a b : List GoString) (alo ahi blo bhi : Nat) : Match :=
  let best := outerLoop a b blo bhi (List.range' alo (ahi - alo)) (fun _ => 0) ⟨alo, blo, 0⟩
  let best := extendLeft a b alo blo false best.A best.B best.Size
  let best : Match := ⟨best.A, best.B,
    extendRight a b ahi bhi false best.A best.B (ahi - (best.A + best.Size)) best.Size⟩
  let best := extendLeft a b alo blo true best.A best.B best.Size
  let best : Match := ⟨best.A, best.B,
    extendRight a b ahi bhi true best.A best.B (ahi - (best.A + best.Size)) best.Size⟩
  best

/-- The recursive closure `matchBlocks` of `GetMatchingBlocks`; `fuel` bounds the recursion
depth (each call works on a strictly shorter range of `a`). -/
def matchBlocks (a b : List GoString) :
    Nat → Nat → Nat → Nat → Nat → List Match → List Match
  | 0, _, _, _, _, matched => matched
  | fuel + 1, alo, ahi, blo, bhi, matched =>
    let m := findLongestMatch a b alo ahi blo bhi
    if m.Size > 0 then
      let matched :=
        if alo < m.A ∧ blo < m.B then matchBlocks a b fuel alo m.A blo m.B matched else matched
      let matched := matched ++ [m]
      if m.A + m.Size < ahi ∧ m.B + m.Size < bhi then
        matchBlocks a b fuel (m.A + m.Size) ahi (m.B + m.Size) bhi matched
      else matched
    else matched

/-- The loop of `GetMatchingBlocks` that merges adjacent blocks; the state is the block
`(i1, j1, k1)` being grown and the list `nonAdjacent`. -/
def collapseLoop : List Match → Match → List Match → Match × List Match
  | [], cur, nonAdjacent => (cur, nonAdjacent)
  | blk :: rest, cur, nonAdjacent =>
    if cur.A + cur.Size = blk.A ∧ cur.B + cur.Size = blk.B then
      collapseLoop rest ⟨cur.A, cur.B, cur.Size + blk.Size⟩ nonAdjacent
    else
      collapseLoop rest blk (if cur.Size > 0 then nonAdjacent ++ [cur] else nonAdjacent)

/-- Method `GetMatchingBlocks`: the matching blocks in increasing order, merged, then the
sentinel `(len(a), len(b), 0)`. -/
def getMatchingBlocks (a b : List GoString) : List Match :=
  let matched := matchBlocks a b (a.length + 1) 0 a.length 0 b.length []
  let st := collapseLoop matched ⟨0, 0, 0⟩ []
  let nonAdjacent := if st.1.Size > 0 then st.2 ++ [st.1] else st.2
  nonAdjacent ++ [⟨a.length, b.length, 0⟩]

/-- The loop of `GetOpCodes` over the matching blocks, from position `(i, j)`. -/
def opCodesLoop : List Match → Nat → Nat → List OpCode → List OpCode
  | [], _, _, opCodes => opCodes
  | m :: rest, i, j, opCodes =>
    let opCodes :=
      if i < m.A ∧ j < m.B then opCodes ++ [OpCode.mk 'r' i m.A j m.B]
      else if i < m.A then opCodes ++ [OpCode.mk 'd' i m.A j m.B]
      else if j < m.B then opCodes ++ [OpCode.mk 'i' i m.A j m.B]
      else opCodes
    let opCodes :=
      if m.Size > 0 then opCodes ++ [OpCode.mk 'e' m.A (m.A + m.Size) m.B (m.B + m.Size)]
      else opCodes
    opCodesLoop rest (m.A + m.Size) (m.B + m.Size) opCodes

/-- Method `GetOpCodes`. -/
def getOpCodes (a b : List GoString) : List OpCode :=
  opCodesLoop (getMatchingBlocks a b) 0 0 []

/-- The grouping loop of `GetGroupedOpCodes`; the state is `groups` and the open `group`. -/
def groupLoop (n : Nat) : List OpCode → List (List OpCode) → List OpCode
    → List (List OpCode) × List OpCode
  | [], groups, group => (groups, group)
  | c :: rest, groups, group =>
    if c.Tag = 'e' ∧ c.I2 - c.I1 > n + n then
      let group := group ++ [OpCode.mk c.Tag c.I1 (min c.I2 (c.I1 + n)) c.J1 (min c.J2 (c.J1 + n))]
      groupLoop n rest (groups ++ [group])
        [OpCode.mk c.Tag (max c.I1 (c.I2 - n)) c.I2 (max c.J1 (c.J2 - n)) c.J2]
    else groupLoop n rest groups (group ++ [c])

/-- The fix-up of the leading group in `GetGroupedOpCodes`: an `'e'` opcode at the head keeps
its last `n` lines only. -/
def trimFirst (n : Nat) : List OpCode → List OpCode
  | c :: rest =>
    if c.Tag = 'e' then
      OpCode.mk c.Tag (max c.I1 (c.I2 - n)) c.I2 (max c.J1 (c.J2 - n)) c.J2 :: rest
    else c :: rest
  | [] => []

/-- The fix-up of the trailing group in `GetGroupedOpCodes`: an `'e'` opcode at the end keeps
its first `n` lines only. -/
def trimLast (n : Nat) (codes : List OpCode) : List OpCode :=
  match codes.getLast? with
  | some c =>
    if c.Tag = 'e' then
      codes.dropLast ++ [OpCode.mk c.Tag c.I1 (min c.I2 (c.I1 + n)) c.J1 (min c.J2 (c.J1 + n))]
    else codes
  | none => codes

/-- Method `GetGroupedOpCodes(n)` for `n >= 0`. -/
def getGroupedOpCodes (a b : List GoString) (n : Nat) : List (List OpCode) :=
  let codes := getOpCodes a b
  let codes := if codes = [] then [OpCode.mk 'e' 0 1 0 1] else codes
  let codes := trimFirst n codes
  let codes := trimLast n codes
  let st := groupLoop n codes [] []
  if st.2.length > 0 ∧ ¬(st.2.length = 1 ∧ (st.2.map OpCode.Tag).head? = some 'e') then
    st.1 ++ [st.2]
  else st.1

/-- Function `formatRangeUnified`. -/
def formatRangeUnified (start stop : Nat) : GoString :=
  let beginning := start + 1
  let length := stop - start
  if length = 1 then fmtInt beginning
  else
    let beginning := if length = 0 then beginning - 1 else beginning
    fmtInt beginning ++ lit "," ++ fmtInt length

/-- The lines one opcode contributes to a hunk of `WriteUnifiedDiff`. -/
def writeOpCode (A B : List GoString) (c : OpCode) : GoString :=
  if c.Tag = 'e' then
    (((A.drop c.I1).take (c.I2 - c.I1)).map (fun line => lit " " ++ line)).flatten
  else
    (if c.Tag = 'r' ∨ c.Tag = 'd' then
      (((A.drop c.I1).take (c.I2 - c.I1)).map (fun line => lit "-" ++ line)).flatten
    else [])
    ++
    (if c.Tag = 'r' ∨ c.Tag = 'i' then
      (((B.drop c.J1).take (c.J2 - c.J1)).map (fun line => lit "+" ++ line)).flatten
    else [])

/-- The loop of `WriteUnifiedDiff` over the groups (`FromDate`, `ToDate` empty, `Eol` "\n");
`started` is the flag of the source: the file header is written before the first group, when
one of the two labels is not empty. -/
def writeGroups (A B : List GoString) (FromFile ToFile : GoString) :
    Bool → List (List OpCode) → GoString
  | _, [] => []
  | started, g :: gs =>
    let header :=
      if !started ∧ (FromFile ≠ [] ∨ ToFile ≠ []) then
        lit "--- " ++ FromFile ++ [nl] ++ (lit "+++ " ++ ToFile ++ [nl])
      else []
    let first := g.headD ⟨'e', 0, 0, 0, 0⟩
    let last := g.getLastD ⟨'e', 0, 0, 0, 0⟩
    let range1 := formatRangeUnified first.I1 last.I2
    let range2 := formatRangeUnified first.J1 last.J2
    header ++ (lit "@@ -" ++ range1 ++ lit " +" ++ range2 ++ lit " @@" ++ [nl])
      ++ (g.map (writeOpCode A B)).flatten ++ writeGroups A B FromFile ToFile true gs

/-- Function `difflib.GetUnifiedDiffString` on a `UnifiedDiff` with fields `A`, `B`,
`FromFile`, `ToFile`, `Context`; writing to the in-memory buffer never fails. -/
def getUnifiedDiffString (A B : List GoString) (FromFile ToFile : GoString) (Context : Nat) :
    Except GoString GoString :=
  .ok (writeGroups A B FromFile ToFile false (getGroupedOpCodes A B Context))

/-! ## Records of `internal/api` and `internal/engine` -/

/-- Modelled from the spec: the status of an `engine.AssertionResult`, the values of
`engine.StatusPass()`, `engine.StatusFail()` and `engine.StatusError()` (package
`internal/engine` is not among the sources; spec §3: status: enum Pass, Fail, Error). -/
inductive Status where
  | Pass
  | Fail
  | Error
  deriving DecidableEq, Repr

/-- Modelled from the spec: record `engine.AssertionResult` (package `internal/engine` is not
among the sources; spec §3 and §6: name, status, message). -/
structure AssertionResult where
  Name : GoString
  Status : Status
  Message : GoString
  deriving DecidableEq, Repr

/-- Modelled from the spec: constructor `engine.NewAssertionResult(name, status, message)`
(package `internal/engine` is not among the sources): the record of its three arguments. -/
def NewAssertionResult (name : GoString) (status : Status) (message : GoString) :
    AssertionResult :=
  ⟨name, status, message⟩

/-- Modelled from the spec: record `api.AssertionGoldenFile` (package `internal/api` is not
among the sources; spec §6: fields `name`, `expected`, `resource`). -/
structure AssertionGoldenFile where
  Name : GoString
  Expected : GoString
  Resource : GoString
  deriving DecidableEq, Repr

/-- Modelled from the spec: record `engine.Outputs` (package `internal/engine` is not among
the sources; spec §6: `render`, the full-render path, and `rendered`, the map from resource
key to path, here an association list read with `List.lookup`). -/
structure Outputs where
  Render : GoString
  Rendered : List (GoString × GoString)

/-! ## `assertions.go` -/

/-- Type `assertionExecutor`.  The filesystem `fs` is what `afero.ReadFile(e.fs, path)`
returns for each path; an `error` is its message (what `%v` prints). -/
structure assertionExecutor where
  fs : GoString → Except GoString (List UInt8)
  outputs : Outputs
  debug : Bool
  testSuiteFile : GoString
  expandPath : GoString → GoString → Except GoString GoString
  colorize : Bool

/-- Function `newAssertionExecutor`. -/
def newAssertionExecutor (fs : GoString → Except GoString (List UInt8)) (outputs : Outputs)
    (debug : Bool) (testSuiteFile : GoString)
    (expandPath : GoString → GoString → Except GoString GoString) (colorize : Bool) :
    assertionExecutor :=
  ⟨fs, outputs, debug, testSuiteFile, expandPath, colorize⟩

/-- The four values `resolveAndReadGoldenFile` returns on success. -/
structure GoldenFiles where
  expectedPath : GoString
  actualPath : GoString
  expectedBytes : List UInt8
  actualBytes : List UInt8
  deriving DecidableEq, Repr

/-- Method `resolveAndReadGoldenFile`.  The first component is the sequence of paths handed to
`afero.ReadFile`, in call order; the second is the `failResult` (`error`) or the four values
(`ok`).  `quote` is the verb `%q` of `fmt.Sprintf` (`strconv.Quote`). -/
def resolveAndReadGoldenFile (quote : GoString → GoString) (e : assertionExecutor)
    (a : AssertionGoldenFile) : List GoString × Except AssertionResult GoldenFiles :=
  match e.expandPath e.testSuiteFile a.Expected with
  | .error err =>
    ([], .error (NewAssertionResult a.Name .Error (lit "invalid expected path: " ++ err)))
  | .ok expectedPath =>
    match (if a.Resource = [] then some e.outputs.Render
           else e.outputs.Rendered.lookup a.Resource) with
    | none =>
      ([], .error (NewAssertionResult a.Name .Error
        (lit "resource " ++ quote a.Resource ++ lit " not found in render output")))
    | some actualPath =>
      match e.fs expectedPath with
      | .error err =>
        ([expectedPath],
          .error (NewAssertionResult a.Name .Error (lit "read expected file: " ++ err)))
      | .ok expectedBytes =>
        match e.fs actualPath with
        | .error err =>
          ([expectedPath, actualPath],
            .error (NewAssertionResult a.Name .Error (lit "read actual file: " ++ err)))
        | .ok actualBytes =>
          ([expectedPath, actualPath],
            .ok ⟨expectedPath, actualPath, expectedBytes, actualBytes⟩)

/-! ## `assertions_diff.go` -/

/-- Constant `ansiReset`. -/
def ansiReset : GoString := lit "\x1b[0m"
/-- Constant `ansiRed`. -/
def ansiRed : GoString := lit "\x1b[31m"
/-- Constant `ansiGreen`. -/
def ansiGreen : GoString := lit "\x1b[32m"
/-- Constant `ansiBold`. -/
def ansiBold : GoString := lit "\x1b[1m"
/-- Constant `ansiCyan`. -/
def ansiCyan : GoString := lit "\x1b[36m"

/-- The `switch` of `colorizeUnifiedDiff` on one line. -/
def colorizeLine (line : GoString) : GoString :=
  if stringsHasPrefix line (lit "--- ") || stringsHasPrefix line (lit "+++ ") then
    ansiBold ++ line ++ ansiReset
  else if stringsHasPrefix line (lit "@@") then ansiCyan ++ line ++ ansiReset
  else if line.length > 0 ∧ line.head? = some 45 then ansiRed ++ line ++ ansiReset
  else if line.length > 0 ∧ line.head? = some 43 then ansiGreen ++ line ++ ansiReset
  else line

/-- Function `colorizeUnifiedDiff`. -/
def colorizeUnifiedDiff (s : GoString) : GoString :=
  stringsJoin nl ((stringsSplit nl s).map colorizeLine)

/-- Function `formatDiffMessageUnified`. -/
def formatDiffMessageUnified (expectedPath actualPath : GoString) (expected actual : List UInt8)
    (colorize : Bool) : GoString :=
  let fromLabel := filepathBase expectedPath
  let fromLabel := if fromLabel = [] then lit "expected" else fromLabel
  let toLabel := filepathBase actualPath
  let toLabel := if toLabel = [] then lit "actual" else toLabel
  match getUnifiedDiffString (splitLines expected) (splitLines actual) fromLabel toLabel 3 with
  | .error err => lit "files differ (unified diff failed: " ++ err ++ lit ")"
  | .ok out => if colorize then colorizeUnifiedDiff out else out

/-- The body of the loop of `executeAssertionsDiff`: the one result appended for `a`. -/
def diffAssertion (quote : GoString → GoString) (e : assertionExecutor)
    (a : AssertionGoldenFile) : AssertionResult :=
  match (resolveAndReadGoldenFile quote e a).2 with
  | .error failResult => failResult
  | .ok g =>
    if g.expectedBytes = g.actualBytes then
      NewAssertionResult a.Name .Pass (lit "files match")
    else
      NewAssertionResult a.Name .Fail
        (formatDiffMessageUnified g.expectedPath g.actualPath g.expectedBytes g.actualBytes
          e.colorize)

/-- Method `executeAssertionsDiff`: the loop appends one result per assertion. -/
def executeAssertionsDiff (quote : GoString → GoString) (e : assertionExecutor)
    (assertions : List AssertionGoldenFile) : List AssertionResult :=
  assertions.foldl (fun results a => results ++ [diffAssertion quote e a]) []

/-! ## `assertions_dyff.go` -/

/-- Type `ytbx.InputFile`. -/
structure InputFile (Docs : Type) where
  Location : GoString
  Documents : Docs

/-- Type `dyff.Report`. -/
structure Report (Docs Diff : Type) where
  From : InputFile Docs
  To : InputFile Docs
  Diffs : List Diff

/-- The functions of `github.com/gonvenience/ytbx` and `github.com/homeport/dyff` that
`executeAssertionsDyff` calls, as parameters: `ytbx.LoadDocuments`, `dyff.CompareInputFiles`
and `HumanReport.WriteReport` into a fresh buffer (the buffer contents, or the error). -/
structure DyffLib (Docs Diff : Type) where
  LoadDocuments : List UInt8 → Except GoString Docs
  CompareInputFiles : InputFile Docs → InputFile Docs → Except GoString (Report Docs Diff)
  WriteReport : Report Docs Diff → Except GoString GoString

/-- The body of the loop of `executeAssertionsDyff`: the one result appended for `a`. -/
def dyffAssertion {Docs Diff : Type} (lib : DyffLib Docs Diff) (quote : GoString → GoString)
    (e : assertionExecutor) (a : AssertionGoldenFile) : AssertionResult :=
  match (resolveAndReadGoldenFile quote e a).2 with
  | .error failResult => failResult
  | .ok g =>
    match lib.LoadDocuments g.expectedBytes with
    | .error err => NewAssertionResult a.Name .Error (lit "load expected: " ++ err)
    | .ok fromDocs =>
      match lib.LoadDocuments g.actualBytes with
      | .error err => NewAssertionResult a.Name .Error (lit "load actual: " ++ err)
      | .ok toDocs =>
        let fromInput : InputFile Docs := ⟨g.expectedPath, fromDocs⟩
        let toInput : InputFile Docs := ⟨g.actualPath, toDocs⟩
        match lib.CompareInputFiles fromInput toInput with
        | .error err => NewAssertionResult a.Name .Error (lit "dyff compare: " ++ err)
        | .ok report =>
          if report.Diffs.length = 0 then
            NewAssertionResult a.Name .Pass (lit "files match")
          else
            match lib.WriteReport report with
            | .error err => NewAssertionResult a.Name .Error (lit "dyff report: " ++ err)
            | .ok buf => NewAssertionResult a.Name .Fail buf

/-- Method `executeAssertionsDyff`: the loop appends one result per assertion. -/
def executeAssertionsDyff {Docs Diff : Type} (lib : DyffLib Docs Diff)
    (quote : GoString → GoString) (e : assertionExecutor)
    (assertions : List AssertionGoldenFile) : List AssertionResult :=
  assertions.foldl (fun results a => results ++ [dyffAssertion lib quote e a]) []

/-! ## `patches.go`: the patch pipeline -/

/-- Modelled from the spec: record `api.Patches` (package `internal/api` is not among the
sources; spec §3 and §6, PatchConfig: the `xrd` path, the tri-state `connectionSecret`
(unset, true or false), `connectionSecretName` and `connectionSecretNamespace`). -/
structure Patches where
  XRD : GoString
  ConnectionSecret : Option Bool
  ConnectionSecretName : GoString
  ConnectionSecretNamespace : GoString
  deriving DecidableEq, Repr

/-- Modelled from the spec: method `api.Patches.CheckConnectionSecret` (package
`internal/api` is not among the sources).  Spec §3: `connectionSecretName` or
`connectionSecretNamespace` may be non-empty only if `connectionSecret` is explicitly set
(true or false); if it is unset and either field is non-empty, validation fails.  The message
is the text the repository's test `TestPatchXR` expects the error to contain. -/
def Patches.CheckConnectionSecret (p : Patches) : Except GoString Unit :=
  if p.ConnectionSecret = none
      ∧ (p.ConnectionSecretName ≠ [] ∨ p.ConnectionSecretNamespace ≠ []) then
    .error (lit ("connection-secret must be set to true when using "
      ++ "connection-secret-name or connection-secret-namespace"))
  else .ok ()

/-- Modelled from the spec: method `api.Patches.HasConnectionSecret` (package `internal/api`
is not among the sources).  Spec §4.6, step 4: the connection secret is added when the
tri-state is true; an explicit false, or an unset value, skips the injection. -/
def Patches.HasConnectionSecret (p : Patches) : Bool :=
  p.ConnectionSecret = some true

/-- The calls of `patchXR` that act on the world outside the function, in call order: reads
and writes through `r.fs`, the two `patchxr` library calls, and debug output. -/
inductive Effect where
  | ReadFile (path : GoString)
  | WriteFile (path : GoString) (data : List UInt8)
  | DefaultValuesFromXRD
  | AddConnectionSecret (name ns : GoString)
  | DebugPrintf (msg : GoString)
  deriving DecidableEq, Repr

/-- The functions `patchXR` calls outside the repository, as parameters, over a filesystem
state `FS`, the parsed XR `Obj` and the parsed XRD `Xrd`: `afero.ReadFile`, `afero.WriteFile`
(the new state and the error, if any), `yaml.Unmarshal` into the XR and into the XRD,
`patchxr.DefaultValuesFromXRD`, `patchxr.AddConnectionSecret`, `yaml.Marshal` and
`filepath.Join`. -/
structure PatchLib (FS Obj Xrd : Type) where
  ReadFile : FS → GoString → Except GoString (List UInt8)
  WriteFile : FS → GoString → List UInt8 → FS × Option GoString
  UnmarshalXR : List UInt8 → Except GoString Obj
  UnmarshalXRD : List UInt8 → Except GoString Xrd
  DefaultValuesFromXRD : Obj → Xrd → Except GoString Obj
  AddConnectionSecret : Obj → GoString → GoString → Except GoString Obj
  Marshal : Obj → Except GoString (List UInt8)
  Join : GoString → GoString → GoString

set_option linter.dupNamespace false in
/-- Type `Runner`, reduced to the fields `patchXR` uses: the filesystem `fs` and the flag
`Debug` (the type is declared in a file that is not among the sources). -/
structure Runner (FS : Type) where
  fs : FS
  Debug : Bool

/-- What a call of `patchXR` leaves behind: the two values it returns (`err` is `none` for a
nil error), the filesystem after the call and the effects, in call order. -/
structure PatchOutcome (FS : Type) where
  path : GoString
  err : Option GoString
  fs : FS
  effects : List Effect

/-- The step "Apply XRD defaults if XRD file is provided" of `patchXR`: the XR after the step
or the error returned, and the effects of the step. -/
def applyXRDDefaults {FS Obj Xrd : Type} (lib : PatchLib FS Obj Xrd) (r : Runner FS)
    (patches : Patches) (xr : Obj) : Except GoString Obj × List Effect :=
  if patches.XRD ≠ [] then
    let debug :=
      if r.Debug then [Effect.DebugPrintf (lit "Patching XR: Applying XRD defaults\n")] else []
    match lib.ReadFile r.fs patches.XRD with
    | .error err =>
      (.error (lit "failed to read XRD file: " ++ err), debug ++ [.ReadFile patches.XRD])
    | .ok xrdData =>
      match lib.UnmarshalXRD xrdData with
      | .error err =>
        (.error (lit "failed to parse XRD YAML: " ++ err), debug ++ [.ReadFile patches.XRD])
      | .ok xrd =>
        match lib.DefaultValuesFromXRD xr xrd with
        | .error err =>
          (.error (lit "failed to apply XRD defaults: " ++ err),
            debug ++ [.ReadFile patches.XRD, .DefaultValuesFromXRD])
        | .ok xr => (.ok xr, debug ++ [.ReadFile patches.XRD, .DefaultValuesFromXRD])
  else (.ok xr, [])

/-- The step "Add connection secret if requested" of `patchXR`. -/
def addConnectionSecretStep {FS Obj Xrd : Type} (lib : PatchLib FS Obj Xrd) (r : Runner FS)
    (patches : Patches) (xr : Obj) : Except GoString Obj × List Effect :=
  if patches.HasConnectionSecret then
    let debug :=
      if r.Debug then [Effect.DebugPrintf (lit "Patching XR: Adding connection secret\n")]
      else []
    let call :=
      Effect.AddConnectionSecret patches.ConnectionSecretName patches.ConnectionSecretNamespace
    match lib.AddConnectionSecret xr patches.ConnectionSecretName
        patches.ConnectionSecretNamespace with
    | .error err => (.error (lit "failed to add connection secret: " ++ err), debug ++ [call])
    | .ok xr => (.ok xr, debug ++ [call])
  else (.ok xr, [])

/-- Method `patchXR`. -/
def patchXR {FS Obj Xrd : Type} (lib : PatchLib FS Obj Xrd) (r : Runner FS)
    (xrPath outputPath : GoString) (patches : Patches) : PatchOutcome FS :=
  match patches.CheckConnectionSecret with
  | .error err => ⟨[], some err, r.fs, []⟩
  | .ok _ =>
    match lib.ReadFile r.fs xrPath with
    | .error err => ⟨[], some (lit "failed to read XR file: " ++ err), r.fs, [.ReadFile xrPath]⟩
    | .ok xrData =>
      match lib.UnmarshalXR xrData with
      | .error err =>
        ⟨[], some (lit "failed to parse XR YAML: " ++ err), r.fs, [.ReadFile xrPath]⟩
      | .ok xr =>
        match applyXRDDefaults lib r patches xr with
        | (.error err, eff1) => ⟨[], some err, r.fs, .ReadFile xrPath :: eff1⟩
        | (.ok xr, eff1) =>
          match addConnectionSecretStep lib r patches xr with
          | (.error err, eff2) => ⟨[], some err, r.fs, .ReadFile xrPath :: (eff1 ++ eff2)⟩
          | (.ok xr, eff2) =>
            match lib.Marshal xr with
            | .error err =>
              ⟨[], some (lit "failed to marshal XR to YAML: " ++ err), r.fs,
                .ReadFile xrPath :: (eff1 ++ eff2)⟩
            | .ok output =>
              let output := lit "---\n" ++ output
              let patchedXRPath := lib.Join outputPath (lit "patched-xr.yaml")
              let w := lib.WriteFile r.fs patchedXRPath output
              let effects :=
                .ReadFile xrPath :: (eff1 ++ eff2 ++ [.WriteFile patchedXRPath output])
              match w.2 with
              | some err =>
                ⟨[], some (lit "failed to write patched XR to temporary file: " ++ err), w.1,
                  effects⟩
              | none => ⟨patchedXRPath, none, w.1, effects⟩

/-! ## Auxiliary definitions used in the statements -/

/-- The stem of a path as `uniqueBaseNamesForPaths` computes it (`nameWithoutExt`). -/
def stemOf (p : GoString) : GoString :=
  stringsTrimSuffix (filepathBase p) (filepathExt (filepathBase p))

/-- The extension of a path as `uniqueBaseNamesForPaths` computes it (`ext`). -/
def extOf (p : GoString) : GoString := filepathExt (filepathBase p)

/-- The name `uniqueBaseNamesForPaths` gives a path whose stem has been seen `k` times
before. -/
def nameFor (p : GoString) (k : Nat) : GoString :=
  if k > 0 then stemOf p ++ lit "_" ++ fmtInt k ++ extOf p else filepathBase p

/-- The number of the first `i` paths whose stem is the stem of `p`. -/
def earlierSameStem (paths : List GoString) (i : Nat) (p : GoString) : Nat :=
  (paths.take i).countP (fun q => decide (stemOf q = stemOf p))

/-- A block of `difflib` matches: the lines of `a` from `m.A` and of `b` from `m.B` agree
over `m.Size` positions. -/
def Match.Valid (a b : List GoString) (m : Match) : Prop :=
  ∀ t, t < m.Size → a.getD (m.A + t) [] = b.getD (m.B + t) []

/-- The block `m` lies inside the window `[alo, ahi) × [blo, bhi)`. -/
def Match.Within (alo ahi blo bhi : Nat) (m : Match) : Prop :=
  alo ≤ m.A ∧ m.A + m.Size ≤ ahi ∧ blo ≤ m.B ∧ m.B + m.Size ≤ bhi

/-- The block `m1` ends before the block `m2` starts, on both sides. -/
def Match.Before (m1 m2 : Match) : Prop :=
  m1.A + m1.Size ≤ m2.A ∧ m1.B + m1.Size ≤ m2.B

/-- The invariant of the map `j2len` of `findLongestMatch` before row `i`: negative keys are
absent, and `f j` is the length of a match that ends at `a[i-1]` and `b[j]` and stays inside
the window. -/
def RowInv (a b : List GoString) (alo blo i : Nat) (f : Int → Nat) : Prop :=
  (∀ z : Int, z < 0 → f z = 0) ∧
  ∀ j : Nat, f j ≤ i - alo ∧ f j ≤ j + 1 - blo ∧
    ∀ t, t < f j → a.getD (i - 1 - t) [] = b.getD (j - t) []

/-- The escape byte (0x1b) that starts every ANSI SGR code. -/
def esc : UInt8 := 27

/-- The number that a list of decimal digit bytes, least significant first, stands for. -/
def digitsValue : List UInt8 → Nat
  | [] => 0
  | d :: ds => (d.toNat - 48) + 10 * digitsValue ds

/-- The SGR code for dim text (ESC[2m), which the docstring of `formatDiffMessageUnified`
names for hunk headers; the source defines no such constant. -/
def ansiDim : GoString := lit "\x1b[2m"

/-- A code as the source defines them: it begins with the escape byte, holds it nowhere else,
has at least four bytes and is not the dim code. -/
def IsCode (c : GoString) : Prop :=
  ∃ tl, c = esc :: tl ∧ esc ∉ tl ∧ 3 ≤ tl.length ∧ ¬ ansiDim <:+: c

/-- The four codes `colorizeUnifiedDiff` puts in front of a line. -/
def lineCodes : List GoString := [ansiBold, ansiCyan, ansiRed, ansiGreen]

/-- The message has a line (a piece between newlines) that begins with `pre`. -/
def HasLine (msg pre : GoString) : Prop := ∃ l ∈ stringsSplit nl msg, pre <+: l

instance (msg pre : GoString) : Decidable (HasLine msg pre) := by
  unfold HasLine; infer_instance

/-- The text `GetUnifiedDiffString` produces inside `formatDiffMessageUnified`, before any
colorization. -/
def plainDiff (expectedPath actualPath : GoString) (expected actual : List UInt8) : GoString :=
  writeGroups (splitLines expected) (splitLines actual) (filepathBase expectedPath)
    (filepathBase actualPath) false
    (getGroupedOpCodes (splitLines expected) (splitLines actual) 3)

/-- The result of `resolveAndReadGoldenFile` when the resource lookup fails. -/
def notFoundResult (quote : GoString → GoString) (a : AssertionGoldenFile) : AssertionResult :=
  ⟨a.Name, .Error, lit "resource " ++ quote a.Resource ++ lit " not found in render output"⟩


/-- The actual path `resolveAndReadGoldenFile` resolves for `a`: the full render when the
resource selector is empty, otherwise the entry of the per-resource index (if any). -/
def resolveActualPath (e : assertionExecutor) (a : AssertionGoldenFile) : Option GoString :=
  if a.Resource = [] then some e.outputs.Render else e.outputs.Rendered.lookup a.Resource


/-! ## Test doubles used by the concrete instances below -/

/-- An in-memory filesystem holding the listed files; any other path fails to read. -/
def memFs (files : List (GoString × List UInt8)) : GoString → Except GoString (List UInt8) :=
  fun path =>
    match files.lookup path with
    | some bytes => .ok bytes
    | none => .error (lit "file does not exist")

/-- The path expander of the repository's tests, for the suite file `/suite/test.yaml`:
the empty path stays empty, any other path is joined to `/suite`. -/
def suiteExpand : GoString → GoString → Except GoString GoString :=
  fun _ path => if path = [] then .ok [] else .ok (lit "/suite/" ++ path)

/-- A path expander that always fails, with the given cause. -/
def failExpand (cause : GoString) : GoString → GoString → Except GoString GoString :=
  fun _ _ => .error cause

/-- The executor of the repository's diff tests: golden file `/suite/golden.yaml`, full render
`/out/render.yaml`, an empty per-resource index. -/
def testExecutor (expected actual : GoString) (colorize : Bool) : assertionExecutor :=
  newAssertionExecutor
    (memFs [(lit "/suite/golden.yaml", expected), (lit "/out/render.yaml", actual)])
    ⟨lit "/out/render.yaml", []⟩ false (lit "/suite/test.yaml") suiteExpand colorize

/-- The assertion spec of the repository's diff tests (full render against `golden.yaml`). -/
def testAssertion : AssertionGoldenFile := ⟨lit "diff", lit "golden.yaml", []⟩

/-- A stand-in for the dyff library: documents are the raw bytes, the report has one entry
when the two documents differ and none when they are equal, and the report writer prints
the fixed text `report` followed by a newline and trailing blanks. -/
def testDyffLib : DyffLib (List UInt8) Unit where
  LoadDocuments := fun bytes => .ok bytes
  CompareInputFiles := fun f t =>
    .ok ⟨f, t, if f.Documents = t.Documents then [] else [()]⟩
  WriteReport := fun _ => .ok (lit "\nreport\n  ")

/-- A stand-in for the libraries of `patchXR` over an in-memory filesystem (a list of
files): YAML documents are their bytes, the XRD defaults and the connection secret leave
the XR as it is, and `Join` puts a slash between its arguments. -/
def testPatchLib : PatchLib (List (GoString × List UInt8)) (List UInt8) (List UInt8) where
  ReadFile := fun fs path => memFs fs path
  WriteFile := fun fs path data => ((path, data) :: fs, none)
  UnmarshalXR := fun bytes => .ok bytes
  UnmarshalXRD := fun bytes => .ok bytes
  DefaultValuesFromXRD := fun xr _ => .ok xr
  AddConnectionSecret := fun xr _ _ => .ok xr
  Marshal := fun xr => .ok xr
  Join := fun dir name => dir ++ lit "/" ++ name

/-- The runner of the repository's `TestPatchXR`: the XR file `/xr.yaml` in an in-memory
filesystem, debug output off. -/
def testRunner : Runner (List (GoString × List UInt8)) :=
  ⟨[(lit "/xr.yaml", lit "apiVersion: example.org/v1\nkind: XExample\n")], false⟩

/-! # Theorems -/

/-! ## The batch loops -/

theorem foldl_append_singleton {α β : Type} (f : α → β) (xs : List α) (init : List β) :
    xs.foldl (fun results a => results ++ [f a]) init = init ++ xs.map f := by
  induction xs generalizing init with
  | nil => simp
  | cons x xs ih => simp [ih]

theorem executeAssertionsDiff_eq_map (quote : GoString → GoString) (e : assertionExecutor)
    (xs : List AssertionGoldenFile) :
    executeAssertionsDiff quote e xs = xs.map (diffAssertion quote e) := by
  simp [executeAssertionsDiff, foldl_append_singleton]

theorem executeAssertionsDyff_eq_map {Docs Diff : Type} (lib : DyffLib Docs Diff)
    (quote : GoString → GoString) (e : assertionExecutor) (xs : List AssertionGoldenFile) :
    executeAssertionsDyff lib quote e xs = xs.map (dyffAssertion lib quote e) := by
  simp [executeAssertionsDyff, foldl_append_singleton]

theorem resolve_error_name (quote : GoString → GoString) (e : assertionExecutor)
    (a : AssertionGoldenFile) (r : AssertionResult)
    (h : (resolveAndReadGoldenFile quote e a).2 = .error r) : r.Name = a.Name := by
  unfold resolveAndReadGoldenFile at h
  split at h
  · simp only [NewAssertionResult] at h; cases h; rfl
  · split at h
    · simp only [NewAssertionResult] at h; cases h; rfl
    · split at h
      · simp only [NewAssertionResult] at h; cases h; rfl
      · split at h
        · simp only [NewAssertionResult] at h; cases h; rfl
        · cases h

theorem diffAssertion_name (quote : GoString → GoString) (e : assertionExecutor)
    (a : AssertionGoldenFile) : (diffAssertion quote e a).Name = a.Name := by
  unfold diffAssertion
  split
  · next r h => exact resolve_error_name quote e a r h
  · split <;> rfl

theorem dyffAssertion_name {Docs Diff : Type} (lib : DyffLib Docs Diff)
    (quote : GoString → GoString) (e : assertionExecutor) (a : AssertionGoldenFile) :
    (dyffAssertion lib quote e a).Name = a.Name := by
  unfold dyffAssertion
  split
  · next r h => exact resolve_error_name quote e a r h
  · split
    · rfl
    · split
      · rfl
      · simp only
        split
        · rfl
        · split
          · rfl
          · split <;> rfl

/-! ## Claims about the resolver and the byte-exact orchestrator -/

/-- C1: when both files of an assertion are resolved and read, the single result of
`executeAssertionsDiff` is Pass with message "files match" exactly when the two byte
sequences are equal, and is otherwise Fail with the unified-diff message; it is never
Error, and never Pass for unequal bytes. -/
theorem executeAssertionsDiff_pass_iff_equal (quote : GoString → GoString)
    (e : assertionExecutor) (a : AssertionGoldenFile) (g : GoldenFiles)
    (h : (resolveAndReadGoldenFile quote e a).2 = .ok g) :
    (executeAssertionsDiff quote e [a] = [⟨a.Name, .Pass, lit "files match"⟩]
        ↔ g.expectedBytes = g.actualBytes)
    ∧ (g.expectedBytes ≠ g.actualBytes →
        executeAssertionsDiff quote e [a] = [⟨a.Name, .Fail,
          formatDiffMessageUnified g.expectedPath g.actualPath g.expectedBytes g.actualBytes
            e.colorize⟩])
    ∧ (∀ r ∈ executeAssertionsDiff quote e [a],
        r.Status ≠ .Error ∧ (r.Status = .Pass ↔ g.expectedBytes = g.actualBytes)
          ∧ (r.Status = .Fail ↔ g.expectedBytes ≠ g.actualBytes)) := by
  by_cases hb : g.expectedBytes = g.actualBytes
  · simp [executeAssertionsDiff_eq_map, diffAssertion, h, hb, NewAssertionResult]
  · simp [executeAssertionsDiff_eq_map, diffAssertion, h, hb, NewAssertionResult]

/-- C1, at the repository's test "pass when files match (full render)": both files hold
`a\n`. -/
theorem executeAssertionsDiff_pass_iff_equal_witness :
    (executeAssertionsDiff id (testExecutor (lit "a\n") (lit "a\n") false) [testAssertion]
        = [⟨testAssertion.Name, .Pass, lit "files match"⟩]
        ↔ lit "a\n" = lit "a\n") :=
  (executeAssertionsDiff_pass_iff_equal id (testExecutor (lit "a\n") (lit "a\n") false)
    testAssertion ⟨lit "/suite/golden.yaml", lit "/out/render.yaml", lit "a\n", lit "a\n"⟩
    (by rfl)).1

/-- C3: `executeAssertionsDiff` and `executeAssertionsDyff` return one result per spec, in
order; the i-th result carries the i-th spec's name and is the result of evaluating that spec
alone, and the results of `xs ++ ys` are those of `xs` followed by those of `ys`. -/
theorem executeAssertions_batch_independent {Docs Diff : Type} (lib : DyffLib Docs Diff)
    (quote : GoString → GoString) (e : assertionExecutor)
    (xs ys : List AssertionGoldenFile) :
    (executeAssertionsDiff quote e xs).length = xs.length
    ∧ (executeAssertionsDyff lib quote e xs).length = xs.length
    ∧ (∀ (i : Nat) (a : AssertionGoldenFile), xs[i]? = some a →
        ∃ r, (executeAssertionsDiff quote e xs)[i]? = some r ∧ r.Name = a.Name
          ∧ executeAssertionsDiff quote e [a] = [r])
    ∧ (∀ (i : Nat) (a : AssertionGoldenFile), xs[i]? = some a →
        ∃ r, (executeAssertionsDyff lib quote e xs)[i]? = some r ∧ r.Name = a.Name
          ∧ executeAssertionsDyff lib quote e [a] = [r])
    ∧ executeAssertionsDiff quote e (xs ++ ys)
        = executeAssertionsDiff quote e xs ++ executeAssertionsDiff quote e ys
    ∧ executeAssertionsDyff lib quote e (xs ++ ys)
        = executeAssertionsDyff lib quote e xs ++ executeAssertionsDyff lib quote e ys := by
  simp only [executeAssertionsDiff_eq_map, executeAssertionsDyff_eq_map, List.length_map,
    List.map_append, List.getElem?_map, List.map_cons, List.map_nil, true_and, and_true]
  refine ⟨?_, ?_⟩
  · intro i a hi
    exact ⟨diffAssertion quote e a, by simp [hi], diffAssertion_name quote e a, rfl⟩
  · intro i a hi
    exact ⟨dyffAssertion lib quote e a, by simp [hi], dyffAssertion_name lib quote e a, rfl⟩

theorem notFound_contains (quote : GoString → GoString) (a : AssertionGoldenFile) :
    stringsContains (notFoundResult quote a).Message (lit "not found in render output") := by
  refine ⟨lit "resource " ++ quote a.Resource ++ lit " ", [], ?_⟩
  have h : lit " not found in render output" = lit " " ++ lit "not found in render output" := by
    decide
  simp [notFoundResult, h]

/-- C7 as stated fails: with a non-empty resource selector and an empty per-resource index, a
path expander that fails makes the result "invalid expected path: boom", which does not
contain "not found in render output". -/
theorem resolve_empty_index_not_for_every_expander :
    ¬ (∀ (quote : GoString → GoString) (e : assertionExecutor) (a : AssertionGoldenFile),
        a.Resource ≠ [] → e.outputs.Rendered = [] →
        ∃ r, (resolveAndReadGoldenFile quote e a).2 = .error r ∧ r.Status = .Error
          ∧ stringsContains r.Message (lit "not found in render output")) := by
  intro h
  obtain ⟨r, hr, _, hc⟩ := h id
    (newAssertionExecutor (memFs []) ⟨lit "/out/render.yaml", []⟩ false (lit "/suite/test.yaml")
      (failExpand (lit "boom")) false)
    ⟨lit "missing resource", lit "g.yaml", lit "Pod/nonexistent"⟩ (by decide) rfl
  have hr2 : r = ⟨lit "missing resource", .Error, lit "invalid expected path: boom"⟩ := by
    have : (Except.error (ε := AssertionResult) (α := GoldenFiles)
        ⟨lit "missing resource", .Error, lit "invalid expected path: boom"⟩) = .error r := by
      rw [← hr]; rfl
    cases this; rfl
  subst hr2
  revert hc
  decide

/-- C7, amended: with a non-empty resource selector and an empty per-resource index, whenever
the path expander succeeds on the expected path, `resolveAndReadGoldenFile` (and thus
`executeAssertionsDiff`) yields Error with message `resource <quoted selector> not found in
render output`, whatever the filesystem holds and without reading any file. -/
theorem resolve_empty_index_not_found (quote : GoString → GoString) (e : assertionExecutor)
    (a : AssertionGoldenFile) (expectedPath : GoString)
    (hexp : e.expandPath e.testSuiteFile a.Expected = .ok expectedPath)
    (hres : a.Resource ≠ []) (hidx : e.outputs.Rendered = []) :
    resolveAndReadGoldenFile quote e a = ([], .error (notFoundResult quote a))
    ∧ executeAssertionsDiff quote e [a] = [notFoundResult quote a]
    ∧ (notFoundResult quote a).Status = .Error
    ∧ stringsContains (notFoundResult quote a).Message (lit "not found in render output")
    ∧ (∀ fs : GoString → Except GoString (List UInt8),
        resolveAndReadGoldenFile quote { e with fs := fs } a
          = ([], .error (notFoundResult quote a))) := by
  have key : ∀ fs : GoString → Except GoString (List UInt8),
      resolveAndReadGoldenFile quote { e with fs := fs } a
        = ([], .error (notFoundResult quote a)) := by
    intro fs
    simp [resolveAndReadGoldenFile, hexp, hres, hidx, notFoundResult, NewAssertionResult]
  have h1 : resolveAndReadGoldenFile quote e a = ([], .error (notFoundResult quote a)) :=
    key e.fs
  refine ⟨h1, ?_, rfl, notFound_contains quote a, key⟩
  simp [executeAssertionsDiff_eq_map, diffAssertion, h1]

/-- C7, amended, at the repository's test "error when resource not in Rendered". -/
theorem resolve_empty_index_not_found_witness :
    executeAssertionsDiff id (testExecutor [] [] false)
        [⟨lit "missing resource", lit "g.yaml", lit "Pod/nonexistent"⟩]
      = [⟨lit "missing resource", .Error,
          lit "resource Pod/nonexistent not found in render output"⟩] :=
  (resolve_empty_index_not_found id (testExecutor [] [] false)
    ⟨lit "missing resource", lit "g.yaml", lit "Pod/nonexistent"⟩ (lit "/suite/g.yaml")
    rfl (by decide) rfl).2.1

/-- C8: whenever the path expander fails on the spec's expected path, the result of
`resolveAndReadGoldenFile` is Error with message `invalid expected path: <cause>`, no file is
read, and the outcome is the same for every resource selector, render index and filesystem. -/
theorem resolve_expand_failure (quote : GoString → GoString) (e : assertionExecutor)
    (a : AssertionGoldenFile) (cause : GoString)
    (hexp : e.expandPath e.testSuiteFile a.Expected = .error cause) :
    resolveAndReadGoldenFile quote e a
      = ([], .error ⟨a.Name, .Error, lit "invalid expected path: " ++ cause⟩)
    ∧ (∀ (fs : GoString → Except GoString (List UInt8)) (outputs : Outputs)
        (resource : GoString),
        resolveAndReadGoldenFile quote { e with fs := fs, outputs := outputs }
            { a with Resource := resource }
          = ([], .error ⟨a.Name, .Error, lit "invalid expected path: " ++ cause⟩)) := by
  constructor
  · simp [resolveAndReadGoldenFile, hexp, NewAssertionResult]
  · intro fs outputs resource
    simp [resolveAndReadGoldenFile, hexp, NewAssertionResult]

/-- C8, at the repository's test "error when expandPath errors". -/
theorem resolve_expand_failure_witness :
    resolveAndReadGoldenFile id
        (newAssertionExecutor (memFs []) ⟨lit "/out/render.yaml", []⟩ false
          (lit "/suite/test.yaml") (failExpand (lit "boom")) false)
        ⟨lit "bad path", lit "golden.yaml", []⟩
      = ([], .error ⟨lit "bad path", .Error, lit "invalid expected path: " ++ lit "boom"⟩) :=
  (resolve_expand_failure id
    (newAssertionExecutor (memFs []) ⟨lit "/out/render.yaml", []⟩ false
      (lit "/suite/test.yaml") (failExpand (lit "boom")) false)
    ⟨lit "bad path", lit "golden.yaml", []⟩ (lit "boom") rfl).1

theorem read_expected_not_read_actual (c : GoString) :
    ¬ (lit "read actual file: " <+: lit "read expected file: " ++ c) := by
  intro h
  have h1 := List.prefix_iff_eq_take.mp h
  rw [List.take_append_of_le_length (by decide)] at h1
  revert h1
  decide

/-- C9: when path expansion and actual-path resolution succeed, the expected file is read
before the actual file.  If the expected file is unreadable the result is Error
`read expected file: <cause>` and the actual file is not even attempted (whatever its state);
the message begins `read actual file: ` exactly when the expected file is readable and the
actual file is not. -/
theorem resolve_reads_expected_first (quote : GoString → GoString) (e : assertionExecutor)
    (a : AssertionGoldenFile) (expectedPath actualPath : GoString)
    (hexp : e.expandPath e.testSuiteFile a.Expected = .ok expectedPath)
    (hact : resolveActualPath e a = some actualPath) :
    (∀ cause, e.fs expectedPath = .error cause →
        resolveAndReadGoldenFile quote e a
          = ([expectedPath], .error ⟨a.Name, .Error, lit "read expected file: " ++ cause⟩))
    ∧ (∀ bytes cause, e.fs expectedPath = .ok bytes → e.fs actualPath = .error cause →
        resolveAndReadGoldenFile quote e a
          = ([expectedPath, actualPath],
              .error ⟨a.Name, .Error, lit "read actual file: " ++ cause⟩))
    ∧ ((∃ r, (resolveAndReadGoldenFile quote e a).2 = .error r
          ∧ lit "read actual file: " <+: r.Message)
        ↔ ((∃ bytes, e.fs expectedPath = .ok bytes)
            ∧ ∃ cause, e.fs actualPath = .error cause))
    ∧ (resolveAndReadGoldenFile quote e a).1 <+: [expectedPath, actualPath] := by
  unfold resolveActualPath at hact
  refine ⟨?_, ?_, ?_, ?_⟩
  · intro cause h
    simp [resolveAndReadGoldenFile, hexp, hact, h, NewAssertionResult]
  · intro bytes cause h1 h2
    simp [resolveAndReadGoldenFile, hexp, hact, h1, h2, NewAssertionResult]
  · cases h1 : e.fs expectedPath with
    | error c1 =>
      simp only [resolveAndReadGoldenFile, hexp, hact, h1, NewAssertionResult]
      constructor
      · rintro ⟨r, hr, hp⟩
        cases hr
        exact absurd hp (read_expected_not_read_actual c1)
      · rintro ⟨⟨b, hb⟩, _⟩
        cases hb
    | ok b1 =>
      cases h2 : e.fs actualPath with
      | error c2 =>
        simp only [resolveAndReadGoldenFile, hexp, hact, h1, h2, NewAssertionResult]
        constructor
        · intro _
          exact ⟨⟨b1, rfl⟩, ⟨c2, rfl⟩⟩
        · intro _
          exact ⟨_, rfl, List.prefix_append _ _⟩
      | ok b2 =>
        simp only [resolveAndReadGoldenFile, hexp, hact, h1, h2, NewAssertionResult]
        constructor
        · rintro ⟨r, hr, _⟩
          cases hr
        · rintro ⟨_, ⟨c, hc⟩⟩
          cases hc
  · cases h1 : e.fs expectedPath with
    | error c1 =>
      simp [resolveAndReadGoldenFile, hexp, hact, h1]
    | ok b1 =>
      cases h2 : e.fs actualPath <;>
        simp [resolveAndReadGoldenFile, hexp, hact, h1, h2]

/-- C9, at a filesystem holding neither file: the expected file is reported, and only it was
attempted. -/
theorem resolve_reads_expected_first_witness :
    resolveAndReadGoldenFile id
        (newAssertionExecutor (memFs []) ⟨lit "/out/render.yaml", []⟩ false
          (lit "/suite/test.yaml") suiteExpand false)
        ⟨lit "no expected", lit "nonexistent.yaml", []⟩
      = ([lit "/suite/nonexistent.yaml"],
          .error ⟨lit "no expected", .Error,
            lit "read expected file: " ++ lit "file does not exist"⟩) :=
  (resolve_reads_expected_first id
    (newAssertionExecutor (memFs []) ⟨lit "/out/render.yaml", []⟩ false
      (lit "/suite/test.yaml") suiteExpand false)
    ⟨lit "no expected", lit "nonexistent.yaml", []⟩
    (lit "/suite/nonexistent.yaml") (lit "/out/render.yaml") rfl rfl).1
    (lit "file does not exist") rfl

/-! ## Collision-free naming -/

theorem extLoop_suffix (rev acc : List UInt8) : extLoop rev acc <:+ rev.reverse ++ acc := by
  induction rev generalizing acc with
  | nil => simp [extLoop]
  | cons c rev ih =>
    unfold extLoop
    split
    · exact List.nil_suffix
    · split
      · simp only [List.reverse_cons, List.append_assoc, List.singleton_append]
        exact List.suffix_append _ _
      · have h := ih (c :: acc)
        simpa using h

theorem filepathExt_suffix (p : GoString) : filepathExt p <:+ p := by
  have h := extLoop_suffix p.reverse []
  simpa [filepathExt] using h

theorem trimSuffix_append (s suffix : GoString) (h : suffix <:+ s) :
    stringsTrimSuffix s suffix ++ suffix = s := by
  obtain ⟨t, ht⟩ := h
  subst ht
  unfold stringsTrimSuffix
  rw [if_pos (List.suffix_append t suffix)]
  simp

theorem stemOf_append_extOf (p : GoString) : stemOf p ++ extOf p = filepathBase p :=
  trimSuffix_append _ _ (filepathExt_suffix (filepathBase p))

theorem uniqueBaseNamesLoop_length (ps : List GoString) (cnt : GoString → Nat) :
    (uniqueBaseNamesLoop ps cnt).length = ps.length := by
  induction ps generalizing cnt with
  | nil => rfl
  | cons q qs ih => simp [uniqueBaseNamesLoop, ih]

theorem uniqueBaseNamesLoop_cons (q : GoString) (qs : List GoString) (cnt : GoString → Nat) :
    uniqueBaseNamesLoop (q :: qs) cnt
      = nameFor q (cnt (stemOf q))
        :: uniqueBaseNamesLoop qs (Function.update cnt (stemOf q) (cnt (stemOf q) + 1)) := by
  simp [uniqueBaseNamesLoop, nameFor, stemOf, extOf]

theorem uniqueBaseNamesLoop_getElem? (ps : List GoString) (cnt : GoString → Nat) (i : Nat)
    (p : GoString) (h : ps[i]? = some p) :
    (uniqueBaseNamesLoop ps cnt)[i]?
      = some (nameFor p (cnt (stemOf p) + earlierSameStem ps i p)) := by
  induction ps generalizing cnt i with
  | nil => simp at h
  | cons q qs ih =>
    rw [uniqueBaseNamesLoop_cons]
    cases i with
    | zero =>
      simp only [List.getElem?_cons_zero, Option.some.injEq] at h
      subst h
      simp [earlierSameStem]
    | succ i =>
      simp only [List.getElem?_cons_succ] at h
      rw [List.getElem?_cons_succ, ih _ i h]
      congr 2
      unfold earlierSameStem
      rw [List.take_succ_cons, List.countP_cons]
      by_cases hq : stemOf q = stemOf p
      · simp [hq, Function.update]
        omega
      · have hq2 : ¬ stemOf p = stemOf q := fun h => hq h.symm
        simp [hq, hq2, Function.update]

theorem earlierSameStem_of_all (paths : List GoString) (stem : GoString) (i : Nat)
    (p : GoString) (hall : ∀ q ∈ paths, stemOf q = stem) (hp : stemOf p = stem)
    (hi : i ≤ paths.length) : earlierSameStem paths i p = i := by
  unfold earlierSameStem
  rw [List.countP_eq_length.mpr]
  · simp [hi]
  · intro q hq
    have := hall q (List.mem_of_mem_take hq)
    simp [this, hp]

/-- C4: `uniqueBaseNamesForPaths` does not always return pairwise distinct names.  For
`/aws/xrd.yaml`, `/gcp/xrd.yaml`, `/other/xrd_1.yaml` the second path is renamed to
`xrd_1.yaml`, which is also the unchanged name of the third. -/
theorem uniqueBaseNamesForPaths_collision :
    uniqueBaseNamesForPaths
        (some [lit "/aws/xrd.yaml", lit "/gcp/xrd.yaml", lit "/other/xrd_1.yaml"])
      = some [lit "xrd.yaml", lit "xrd_1.yaml", lit "xrd_1.yaml"]
    ∧ ¬ (∀ paths names,
        uniqueBaseNamesForPaths (some paths) = some names → names.Nodup) := by
  have h : uniqueBaseNamesForPaths
        (some [lit "/aws/xrd.yaml", lit "/gcp/xrd.yaml", lit "/other/xrd_1.yaml"])
      = some [lit "xrd.yaml", lit "xrd_1.yaml", lit "xrd_1.yaml"] := by decide
  refine ⟨h, fun hall => ?_⟩
  have hnd := hall _ _ h
  revert hnd
  decide

/-- C5: when all N paths have the same stem and the same extension, the names returned are
`stem ++ ext`, `stem_1 ++ ext`, ..., `stem_(N-1) ++ ext`, in the order of the paths. -/
theorem uniqueBaseNamesForPaths_same_stem (paths : List GoString) (stem ext : GoString)
    (hall : ∀ p ∈ paths, stemOf p = stem ∧ extOf p = ext) :
    uniqueBaseNamesForPaths (some paths)
      = some ((List.range paths.length).map (fun i =>
          if i = 0 then stem ++ ext else stem ++ lit "_" ++ fmtInt i ++ ext)) := by
  simp only [uniqueBaseNamesForPaths, Option.some.injEq]
  apply List.ext_getElem?
  intro i
  by_cases hi : i < paths.length
  · have hp : paths[i]? = some paths[i] := List.getElem?_eq_getElem hi
    have hmem : paths[i] ∈ paths := List.getElem_mem hi
    obtain ⟨hs, he⟩ := hall _ hmem
    rw [uniqueBaseNamesLoop_getElem? paths _ i _ hp,
      earlierSameStem_of_all paths stem i _ (fun q hq => (hall q hq).1) hs (Nat.le_of_lt hi)]
    simp only [Nat.zero_add, List.getElem?_map, List.getElem?_range hi, Option.map_some']
    congr 1
    unfold nameFor
    by_cases h0 : i = 0
    · subst h0
      rw [if_neg (by decide), ← stemOf_append_extOf, hs, he]
      simp
    · have : i > 0 := Nat.pos_of_ne_zero h0
      simp [h0, this, hs, he]
  · have h1 : (uniqueBaseNamesLoop paths fun _ => 0).length ≤ i := by
      rw [uniqueBaseNamesLoop_length]; omega
    rw [List.getElem?_eq_none h1, List.getElem?_eq_none (by simpa using hi)]

/-- C5, at the repository's test "three files same base name". -/
theorem uniqueBaseNamesForPaths_same_stem_witness :
    uniqueBaseNamesForPaths (some [lit "/a/xrd.yaml", lit "/b/xrd.yaml", lit "/c/xrd.yaml"])
      = some ((List.range 3).map (fun i =>
          if i = 0 then lit "xrd" ++ lit ".yaml"
          else lit "xrd" ++ lit "_" ++ fmtInt i ++ lit ".yaml")) :=
  uniqueBaseNamesForPaths_same_stem [lit "/a/xrd.yaml", lit "/b/xrd.yaml", lit "/c/xrd.yaml"]
    (lit "xrd") (lit ".yaml") (by decide)

/-- C6: `uniqueBaseNamesForPaths` returns nil for nil and the empty sequence for the empty
sequence; otherwise the result has the length of the input, and with k the number of earlier
paths whose base filename has the same stem, element i is the unchanged base filename of
path i when k = 0 and `<stem>_<k><extension>` when k >= 1. -/
theorem uniqueBaseNamesForPaths_spec (paths : List GoString) :
    uniqueBaseNamesForPaths none = none
    ∧ uniqueBaseNamesForPaths (some []) = some []
    ∧ ∃ names, uniqueBaseNamesForPaths (some paths) = some names
        ∧ names.length = paths.length
        ∧ ∀ (i : Nat) (p : GoString), paths[i]? = some p →
            names[i]? = some
              (if earlierSameStem paths i p = 0 then filepathBase p
               else stemOf p ++ lit "_" ++ fmtInt (earlierSameStem paths i p) ++ extOf p) := by
  refine ⟨rfl, rfl, uniqueBaseNamesLoop paths (fun _ => 0), rfl,
    uniqueBaseNamesLoop_length _ _, ?_⟩
  intro i p hp
  rw [uniqueBaseNamesLoop_getElem? paths _ i p hp]
  simp only [Nat.zero_add, nameFor]
  by_cases h0 : earlierSameStem paths i p = 0
  · simp [h0]
  · have : earlierSameStem paths i p > 0 := Nat.pos_of_ne_zero h0
    simp [h0, this]

/-! ## The sequence matcher: every matching block is a true match -/

theorem indicesOf_getElem? (s : GoString) (n : Nat) (xs : List GoString) (j : Nat)
    (h : j ∈ indicesOf s n xs) : n ≤ j ∧ xs[j - n]? = some s := by
  induction xs generalizing n with
  | nil => simp [indicesOf] at h
  | cons x xs ih =>
    unfold indicesOf at h
    split at h
    · next hx =>
      rcases List.mem_cons.mp h with h | h
      · subst h; simp [hx]
      · obtain ⟨h1, h2⟩ := ih (n + 1) h
        refine ⟨by omega, ?_⟩
        have : j - n = (j - (n + 1)) + 1 := by omega
        rw [this, List.getElem?_cons_succ]; exact h2
    · obtain ⟨h1, h2⟩ := ih (n + 1) h
      refine ⟨by omega, ?_⟩
      have : j - n = (j - (n + 1)) + 1 := by omega
      rw [this, List.getElem?_cons_succ]; exact h2

theorem b2j_getD (b : List GoString) (s : GoString) (j : Nat) (h : j ∈ b2j b s) :
    b.getD j [] = s := by
  unfold b2j at h
  simp only at h
  split at h
  · simp at h
  · have := (indicesOf_getElem? s 0 b j h).2
    simp only [Nat.sub_zero] at this
    simp [List.getD_eq_getElem?_getD, this]

theorem innerLoop_spec (a b : List GoString) (alo ahi blo bhi i : Nat) (j2len : Int → Nat)
    (hrow : RowInv a b alo blo i j2len) (hlo : alo ≤ i) (hhi : i < ahi)
    (js : List Nat) (hjs : ∀ j ∈ js, b.getD j [] = a.getD i [])
    (st : (Int → Nat) × Match)
    (h1 : RowInv a b alo blo (i + 1) st.1) (h2 : st.2.Valid a b)
    (h3 : st.2.Within alo ahi blo bhi) :
    RowInv a b alo blo (i + 1) (innerLoop blo bhi i j2len js st).1
    ∧ (innerLoop blo bhi i j2len js st).2.Valid a b
    ∧ (innerLoop blo bhi i j2len js st).2.Within alo ahi blo bhi := by
  induction js generalizing st with
  | nil => exact ⟨h1, h2, h3⟩
  | cons j js ih =>
    obtain ⟨newj2len, best⟩ := st
    unfold innerLoop
    have hjs' : ∀ j ∈ js, b.getD j [] = a.getD i [] :=
      fun x hx => hjs x (List.mem_cons_of_mem _ hx)
    split
    · exact ih hjs' _ h1 h2 h3
    · next hblo =>
      split
      · exact ⟨h1, h2, h3⟩
      · next hbhi =>
        have hj : b.getD j [] = a.getD i [] := hjs j (List.mem_cons_self _ _)
        -- the length of the match ending at a[i], b[j]
        have hk : j2len ((j : Int) - 1) + 1 ≤ i + 1 - alo
            ∧ j2len ((j : Int) - 1) + 1 ≤ j + 1 - blo
            ∧ ∀ t, t < j2len ((j : Int) - 1) + 1 → a.getD (i - t) [] = b.getD (j - t) [] := by
          cases j with
          | zero =>
            have hz : j2len (((0 : Nat) : Int) - 1) = 0 := hrow.1 _ (by omega)
            rw [hz]
            refine ⟨by omega, by omega, ?_⟩
            intro t ht
            have : t = 0 := by omega
            subst this
            simpa using hj.symm
          | succ j' =>
            have hc : (((j' + 1 : Nat) : Int) - 1) = (j' : Int) := by push_cast; ring
            rw [hc]
            obtain ⟨r1, r2, r3⟩ := hrow.2 j'
            refine ⟨by omega, by omega, ?_⟩
            intro t ht
            cases t with
            | zero => simpa using hj.symm
            | succ t' =>
              have := r3 t' (by omega)
              have e1 : i - (t' + 1) = i - 1 - t' := by omega
              have e2 : j' + 1 - (t' + 1) = j' - t' := by omega
              rw [e1, e2]; exact this
        obtain ⟨k1, k2, k3⟩ := hk
        apply ih hjs'
        · -- the row invariant after the update
          refine ⟨?_, ?_⟩
          · intro z hz
            have hne : z ≠ (j : Int) := by omega
            simp only [Function.update_apply, hne, if_false]
            exact h1.1 z hz
          · intro j2
            by_cases hjj : j2 = j
            · subst hjj
              simp only [Function.update_same]
              refine ⟨by omega, by omega, ?_⟩
              intro t ht
              have := k3 t ht
              simpa using this
            · have hne : (j2 : Int) ≠ (j : Int) := by omega
              simp only [Function.update_apply, hne, if_false]
              exact h1.2 j2
        · -- the best match stays a true match
          show Match.Valid a b (if _ then _ else _)
          split
          · intro t ht
            simp only at ht ⊢
            have := k3 (j2len ((j : Int) - 1) + 1 - 1 - t) (by omega)
            have e1 : i + 1 - (j2len ((j : Int) - 1) + 1) + t
                = i - (j2len ((j : Int) - 1) + 1 - 1 - t) := by omega
            have e2 : j + 1 - (j2len ((j : Int) - 1) + 1) + t
                = j - (j2len ((j : Int) - 1) + 1 - 1 - t) := by omega
            rw [e1, e2]; exact this
          · exact h2
        · show Match.Within alo ahi blo bhi (if _ then _ else _)
          split
          · refine ⟨?_, ?_, ?_, ?_⟩ <;> simp only <;> omega
          · exact h3

theorem rowInv_zero (a b : List GoString) (alo blo i : Nat) :
    RowInv a b alo blo i (fun _ => 0) :=
  ⟨fun _ _ => rfl,
    fun _ => ⟨Nat.zero_le _, Nat.zero_le _, fun _ ht => absurd ht (Nat.not_lt_zero _)⟩⟩

theorem outerLoop_spec (a b : List GoString) (alo ahi blo bhi n i : Nat) (j2len : Int → Nat)
    (best : Match) (hrow : RowInv a b alo blo i j2len) (hlo : alo ≤ i) (hhi : i + n ≤ ahi)
    (h2 : best.Valid a b) (h3 : best.Within alo ahi blo bhi) :
    (outerLoop a b blo bhi (List.range' i n) j2len best).Valid a b
    ∧ (outerLoop a b blo bhi (List.range' i n) j2len best).Within alo ahi blo bhi := by
  induction n generalizing i j2len best with
  | zero => exact ⟨h2, h3⟩
  | succ n ih =>
    rw [List.range'_succ]
    unfold outerLoop
    obtain ⟨r1, r2, r3⟩ := innerLoop_spec a b alo ahi blo bhi i j2len hrow hlo (by omega)
      (b2j b (a.getD i [])) (fun j hj => b2j_getD b _ j hj) (fun _ => 0, best)
      (rowInv_zero a b alo blo (i + 1)) h2 h3
    exact ih (i + 1) _ _ r1 (by omega) (by omega) r2 r3

theorem extendLeft_spec (a b : List GoString) (alo ahi blo bhi : Nat) (junk : Bool)
    (besti bestj bestsize : Nat) (hv : Match.Valid a b ⟨besti, bestj, bestsize⟩)
    (hw : Match.Within alo ahi blo bhi ⟨besti, bestj, bestsize⟩) :
    (extendLeft a b alo blo junk besti bestj bestsize).Valid a b
    ∧ (extendLeft a b alo blo junk besti bestj bestsize).Within alo ahi blo bhi := by
  induction besti generalizing bestj bestsize with
  | zero => exact ⟨hv, hw⟩
  | succ besti ih =>
    unfold extendLeft
    split
    · next hc =>
      obtain ⟨c1, c2, _, c4⟩ := hc
      obtain ⟨w1, w2, w3, w4⟩ := hw
      simp only at w1 w2 w3 w4
      apply ih
      · intro t ht
        simp only at ht ⊢
        cases t with
        | zero => simpa using c4
        | succ t' =>
          have := hv t' (by simp only; omega)
          simp only at this
          have e1 : besti + (t' + 1) = besti + 1 + t' := by omega
          have e2 : bestj - 1 + (t' + 1) = bestj + t' := by omega
          rw [e1, e2]; exact this
      · refine ⟨?_, ?_, ?_, ?_⟩ <;> simp only <;> omega
    · exact ⟨hv, hw⟩

theorem extendRight_spec (a b : List GoString) (alo ahi blo bhi : Nat) (junk : Bool)
    (besti bestj fuel bestsize : Nat) (hv : Match.Valid a b ⟨besti, bestj, bestsize⟩)
    (hw : Match.Within alo ahi blo bhi ⟨besti, bestj, bestsize⟩) :
    Match.Valid a b ⟨besti, bestj, extendRight a b ahi bhi junk besti bestj fuel bestsize⟩
    ∧ Match.Within alo ahi blo bhi
        ⟨besti, bestj, extendRight a b ahi bhi junk besti bestj fuel bestsize⟩ := by
  induction fuel generalizing bestsize with
  | zero => exact ⟨hv, hw⟩
  | succ fuel ih =>
    unfold extendRight
    split
    · next hc =>
      obtain ⟨c1, c2, _, c4⟩ := hc
      obtain ⟨w1, w2, w3, w4⟩ := hw
      simp only at w1 w2 w3 w4
      apply ih
      · intro t ht
        simp only at ht ⊢
        by_cases htt : t < bestsize
        · exact hv t htt
        · have : t = bestsize := by omega
          subst this
          exact c4
      · refine ⟨?_, ?_, ?_, ?_⟩ <;> simp only <;> omega
    · exact ⟨hv, hw⟩

theorem findLongestMatch_spec (a b : List GoString) (alo ahi blo bhi : Nat)
    (ha : alo ≤ ahi) (hb : blo ≤ bhi) :
    (findLongestMatch a b alo ahi blo bhi).Valid a b
    ∧ (findLongestMatch a b alo ahi blo bhi).Within alo ahi blo bhi := by
  unfold findLongestMatch
  simp only
  have h0v : Match.Valid a b ⟨alo, blo, 0⟩ := fun t ht => absurd ht (Nat.not_lt_zero _)
  have h0w : Match.Within alo ahi blo bhi ⟨alo, blo, 0⟩ := by
    refine ⟨?_, ?_, ?_, ?_⟩ <;> simp only <;> omega
  obtain ⟨v1, w1⟩ := outerLoop_spec a b alo ahi blo bhi (ahi - alo) alo (fun _ => 0) _
    (rowInv_zero a b alo blo alo) (Nat.le_refl _) (by omega) h0v h0w
  obtain ⟨v2, w2⟩ := extendLeft_spec a b alo ahi blo bhi false _ _ _ v1 w1
  obtain ⟨v3, w3⟩ := extendRight_spec a b alo ahi blo bhi false _ _
    (ahi - ((extendLeft a b alo blo false _ _ _).A + (extendLeft a b alo blo false _ _ _).Size))
    _ v2 w2
  obtain ⟨v4, w4⟩ := extendLeft_spec a b alo ahi blo bhi true _ _ _ v3 w3
  exact extendRight_spec a b alo ahi blo bhi true _ _ _ _ v4 w4

theorem matchBlocks_spec (a b : List GoString) (fuel alo ahi blo bhi : Nat)
    (matched : List Match) (ha : alo ≤ ahi) (hb : blo ≤ bhi) :
    ∃ new, matchBlocks a b fuel alo ahi blo bhi matched = matched ++ new
      ∧ (∀ m ∈ new, m.Valid a b ∧ m.Within alo ahi blo bhi)
      ∧ new.Pairwise Match.Before := by
  induction fuel generalizing alo ahi blo bhi matched with
  | zero => exact ⟨[], by simp [matchBlocks], by simp, List.Pairwise.nil⟩
  | succ fuel ih =>
    obtain ⟨hv, hw⟩ := findLongestMatch_spec a b alo ahi blo bhi ha hb
    unfold matchBlocks
    simp only
    generalize findLongestMatch a b alo ahi blo bhi = m at hv hw
    obtain ⟨w1, w2, w3, w4⟩ := hw
    by_cases hs : m.Size > 0
    · rw [if_pos hs]
      have left : ∃ new1,
          (if alo < m.A ∧ blo < m.B then matchBlocks a b fuel alo m.A blo m.B matched
            else matched) = matched ++ new1
          ∧ (∀ x ∈ new1, x.Valid a b ∧ x.Within alo m.A blo m.B)
          ∧ new1.Pairwise Match.Before := by
        by_cases hc : alo < m.A ∧ blo < m.B
        · rw [if_pos hc]; exact ih alo m.A blo m.B matched (by omega) (by omega)
        · rw [if_neg hc]; exact ⟨[], by simp, by simp, List.Pairwise.nil⟩
      obtain ⟨new1, e1, p1, q1⟩ := left
      rw [e1]
      have right : ∃ new2,
          (if m.A + m.Size < ahi ∧ m.B + m.Size < bhi then
              matchBlocks a b fuel (m.A + m.Size) ahi (m.B + m.Size) bhi (matched ++ new1 ++ [m])
            else matched ++ new1 ++ [m]) = (matched ++ new1 ++ [m]) ++ new2
          ∧ (∀ x ∈ new2, x.Valid a b ∧ x.Within (m.A + m.Size) ahi (m.B + m.Size) bhi)
          ∧ new2.Pairwise Match.Before := by
        by_cases hc : m.A + m.Size < ahi ∧ m.B + m.Size < bhi
        · rw [if_pos hc]; exact ih _ _ _ _ _ (by omega) (by omega)
        · rw [if_neg hc]; exact ⟨[], by simp, by simp, List.Pairwise.nil⟩
      obtain ⟨new2, e2, p2, q2⟩ := right
      rw [e2]
      refine ⟨new1 ++ [m] ++ new2, by simp [List.append_assoc], ?_, ?_⟩
      · intro x hx
        simp only [List.mem_append, List.mem_singleton] at hx
        rcases hx with (hx | hx) | hx
        · obtain ⟨xv, x1, x2, x3, x4⟩ := p1 x hx
          exact ⟨xv, by omega, by omega, by omega, by omega⟩
        · subst hx
          exact ⟨hv, w1, w2, w3, w4⟩
        · obtain ⟨xv, x1, x2, x3, x4⟩ := p2 x hx
          exact ⟨xv, by omega, by omega, by omega, by omega⟩
      · rw [List.append_assoc, List.pairwise_append]
        refine ⟨q1, ?_, ?_⟩
        · rw [List.singleton_append, List.pairwise_cons]
          refine ⟨?_, q2⟩
          intro y hy
          obtain ⟨_, y1, _, y3, _⟩ := p2 y hy
          exact ⟨y1, y3⟩
        · intro x hx y hy
          obtain ⟨_, _, x2, _, x4⟩ := p1 x hx
          simp only [List.singleton_append, List.mem_cons] at hy
          rcases hy with hy | hy
          · subst hy; exact ⟨x2, x4⟩
          · obtain ⟨_, y1, _, y3, _⟩ := p2 y hy
            exact ⟨by omega, by omega⟩
    · rw [if_neg hs]
      exact ⟨[], by simp, by simp, List.Pairwise.nil⟩

/-- The invariant of `collapseLoop`: the blocks already emitted, the block being grown and the
blocks still to come are true matches inside `[0, la) × [0, lb)`, in increasing order. -/
theorem collapseLoop_spec (a b : List GoString) (la lb : Nat) (rest : List Match) (cur : Match)
    (nonAdjacent : List Match)
    (hall : ∀ m ∈ nonAdjacent ++ cur :: rest, m.Valid a b ∧ m.Within 0 la 0 lb)
    (hpw : (nonAdjacent ++ cur :: rest).Pairwise Match.Before) :
    (∀ m ∈ (collapseLoop rest cur nonAdjacent).2 ++ [(collapseLoop rest cur nonAdjacent).1],
        m.Valid a b ∧ m.Within 0 la 0 lb)
    ∧ ((collapseLoop rest cur nonAdjacent).2
        ++ [(collapseLoop rest cur nonAdjacent).1]).Pairwise Match.Before := by
  induction rest generalizing cur nonAdjacent with
  | nil => exact ⟨hall, hpw⟩
  | cons blk rest ih =>
    unfold collapseLoop
    have hcur := hall cur (by simp)
    have hblk := hall blk (by simp)
    rw [List.pairwise_append] at hpw
    obtain ⟨pw1, pw2, pw3⟩ := hpw
    rw [List.pairwise_cons] at pw2
    obtain ⟨pw4, pw5⟩ := pw2
    rw [List.pairwise_cons] at pw5
    obtain ⟨pw6, pw7⟩ := pw5
    split
    · next hadj =>
      obtain ⟨ad1, ad2⟩ := hadj
      apply ih
      · intro m hm
        simp only [List.mem_append, List.mem_cons] at hm
        rcases hm with hm | hm | hm
        · exact hall m (by simp [hm])
        · subst hm
          obtain ⟨cv, c1, c2, c3, c4⟩ := hcur
          obtain ⟨bv, b1, b2, b3, b4⟩ := hblk
          refine ⟨?_, ⟨c1, ?_, c3, ?_⟩⟩
          · intro t ht
            simp only at ht ⊢
            by_cases htt : t < cur.Size
            · exact cv t htt
            · have := bv (t - cur.Size) (by omega)
              have e1 : blk.A + (t - cur.Size) = cur.A + t := by omega
              have e2 : blk.B + (t - cur.Size) = cur.B + t := by omega
              rw [e1, e2] at this; exact this
          · simp only; omega
          · simp only; omega
        · exact hall m (by simp [hm])
      · rw [List.pairwise_append]
        refine ⟨pw1, ?_, ?_⟩
        · rw [List.pairwise_cons]
          refine ⟨?_, pw7⟩
          intro y hy
          obtain ⟨y1, y2⟩ := pw6 y hy
          exact ⟨by simp only; omega, by simp only; omega⟩
        · intro x hx y hy
          simp only [List.mem_cons] at hy
          rcases hy with hy | hy
          · subst hy
            obtain ⟨x1, x2⟩ := pw3 x hx cur (by simp)
            exact ⟨x1, x2⟩
          · exact pw3 x hx y (by simp [hy])
    · split
      · apply ih
        · intro m hm
          apply hall
          simp only [List.mem_append, List.mem_cons, List.mem_singleton] at hm ⊢
          tauto
        · rw [List.append_assoc, List.singleton_append, List.pairwise_append]
          exact ⟨pw1,
            List.pairwise_cons.mpr ⟨pw4, List.pairwise_cons.mpr ⟨pw6, pw7⟩⟩, pw3⟩
      · apply ih
        · intro m hm
          apply hall
          simp only [List.mem_append, List.mem_cons] at hm ⊢
          tauto
        · rw [List.pairwise_append]
          refine ⟨pw1, List.pairwise_cons.mpr ⟨pw6, pw7⟩, ?_⟩
          intro x hx y hy
          exact pw3 x hx y (List.mem_cons_of_mem _ hy)

theorem getMatchingBlocks_spec (a b : List GoString) :
    ∃ blocks, getMatchingBlocks a b = blocks ++ [⟨a.length, b.length, 0⟩]
      ∧ (∀ m ∈ blocks ++ [(⟨a.length, b.length, 0⟩ : Match)], m.Valid a b)
      ∧ (blocks ++ [(⟨a.length, b.length, 0⟩ : Match)]).Pairwise Match.Before := by
  obtain ⟨new, e, p, q⟩ := matchBlocks_spec a b (a.length + 1) 0 a.length 0 b.length []
    (Nat.zero_le _) (Nat.zero_le _)
  rw [List.nil_append] at e
  have h0 : ∀ m ∈ ([] : List Match) ++ (⟨0, 0, 0⟩ : Match) :: new,
      m.Valid a b ∧ m.Within 0 a.length 0 b.length := by
    intro m hm
    simp only [List.nil_append, List.mem_cons] at hm
    rcases hm with hm | hm
    · subst hm
      exact ⟨fun t ht => absurd ht (Nat.not_lt_zero _),
        ⟨Nat.le_refl _, Nat.zero_le _, Nat.le_refl _, Nat.zero_le _⟩⟩
    · exact p m hm
  have h1 : (([] : List Match) ++ (⟨0, 0, 0⟩ : Match) :: new).Pairwise Match.Before := by
    rw [List.nil_append, List.pairwise_cons]
    exact ⟨fun y _ => ⟨by simp, by simp⟩, q⟩
  obtain ⟨c1, c2⟩ := collapseLoop_spec a b a.length b.length new ⟨0, 0, 0⟩ [] h0 h1
  unfold getMatchingBlocks
  simp only
  rw [e]
  generalize collapseLoop new ⟨0, 0, 0⟩ [] = st at c1 c2
  have key : ∀ blocks : List Match,
      (∀ m ∈ blocks, m.Valid a b ∧ m.Within 0 a.length 0 b.length)
      → blocks.Pairwise Match.Before →
      (∀ m ∈ blocks ++ [(⟨a.length, b.length, 0⟩ : Match)], m.Valid a b)
      ∧ (blocks ++ [(⟨a.length, b.length, 0⟩ : Match)]).Pairwise Match.Before := by
    intro blocks hb hp
    constructor
    · intro m hm
      simp only [List.mem_append, List.mem_singleton] at hm
      rcases hm with hm | hm
      · exact (hb m hm).1
      · subst hm
        exact fun t ht => absurd ht (Nat.not_lt_zero _)
    · rw [List.pairwise_append]
      refine ⟨hp, List.pairwise_singleton _ _, ?_⟩
      intro x hx y hy
      simp only [List.mem_singleton] at hy
      subst hy
      obtain ⟨_, _, x2, _, x4⟩ := hb x hx
      exact ⟨x2, x4⟩
  split
  · exact ⟨st.2 ++ [st.1], rfl, key _ c1 c2⟩
  · refine ⟨st.2, rfl, key _ (fun m hm => c1 m (by simp [hm])) ?_⟩
    rw [List.pairwise_append] at c2
    exact c2.1

/-! ## The bounded loops run to completion

The recursions that stand for loops of the source carry a bound (`fuel`).  The bounds used
are large enough: any larger bound gives the same result, so no loop is cut short. -/

theorem digitsRev_fuel (fuel fuel' n : Nat) (h : n < fuel) (h' : n < fuel') :
    digitsRev fuel n = digitsRev fuel' n := by
  induction fuel generalizing fuel' n with
  | zero => omega
  | succ fuel ih =>
    cases fuel' with
    | zero => omega
    | succ fuel' =>
      unfold digitsRev
      split
      · rfl
      · next hn =>
        rw [ih fuel' (n / 10) (by omega) (by omega)]

/-- The verb `%d` agrees with the decimal digits of Lean's `Nat.toDigits`. -/
theorem fmtInt_eq_toDigits (n : Nat) :
    fmtInt n = (Nat.toDigits 10 n).map (fun c => UInt8.ofNat c.toNat) := by
  have hd : ∀ d, d < 10 → UInt8.ofNat (Nat.digitChar d).toNat = UInt8.ofNat (48 + d) := by
    decide
  have key : ∀ fuel n ds, n < fuel →
      (Nat.toDigitsCore 10 fuel n ds).map (fun c => UInt8.ofNat c.toNat)
        = (digitsRev fuel n).reverse ++ ds.map (fun c => UInt8.ofNat c.toNat) := by
    intro fuel
    induction fuel with
    | zero => intro n ds h; omega
    | succ fuel ih =>
      intro n ds h
      unfold Nat.toDigitsCore digitsRev
      simp only
      by_cases hn : n < 10
      · have h0 : n / 10 = 0 := by omega
        have h1 : n % 10 = n := by omega
        rw [if_pos h0, if_pos hn, h1]
        simp [hd n hn]
      · have h0 : ¬ n / 10 = 0 := by omega
        rw [if_neg h0, if_neg hn, ih (n / 10) _ (by omega)]
        simp [hd (n % 10) (Nat.mod_lt _ (by decide))]
  unfold fmtInt Nat.toDigits
  rw [key (n + 1) n [] (by omega)]
  simp

theorem extendRight_fuel (a b : List GoString) (ahi bhi : Nat) (junk : Bool)
    (besti bestj fuel bestsize : Nat) (h : ahi - (besti + bestsize) ≤ fuel) :
    extendRight a b ahi bhi junk besti bestj fuel bestsize
      = extendRight a b ahi bhi junk besti bestj (ahi - (besti + bestsize)) bestsize := by
  induction fuel generalizing bestsize with
  | zero =>
    have : ahi - (besti + bestsize) = 0 := by omega
    rw [this]
  | succ fuel ih =>
    by_cases hc : besti + bestsize < ahi ∧ bestj + bestsize < bhi
        ∧ isBJunk (b.getD (bestj + bestsize) []) = junk
        ∧ a.getD (besti + bestsize) [] = b.getD (bestj + bestsize) []
    · have e : ahi - (besti + bestsize) = (ahi - (besti + (bestsize + 1))) + 1 := by omega
      rw [e]
      conv_lhs => unfold extendRight
      conv_rhs => unfold extendRight
      rw [if_pos hc, if_pos hc]
      exact ih (bestsize + 1) (by omega)
    · conv_lhs => unfold extendRight
      rw [if_neg hc]
      cases hk : ahi - (besti + bestsize) with
      | zero => rfl
      | succ k =>
        conv_rhs => unfold extendRight
        rw [if_neg hc]

theorem matchBlocks_fuel (a b : List GoString) (fuel fuel' alo ahi blo bhi : Nat)
    (matched : List Match) (ha : alo ≤ ahi) (hb : blo ≤ bhi) (h : ahi - alo < fuel)
    (h' : ahi - alo < fuel') :
    matchBlocks a b fuel alo ahi blo bhi matched
      = matchBlocks a b fuel' alo ahi blo bhi matched := by
  induction fuel generalizing fuel' alo ahi blo bhi matched with
  | zero => omega
  | succ fuel ih =>
    cases fuel' with
    | zero => omega
    | succ fuel' =>
      obtain ⟨_, w1, w2, w3, w4⟩ := findLongestMatch_spec a b alo ahi blo bhi ha hb
      unfold matchBlocks
      simp only
      generalize findLongestMatch a b alo ahi blo bhi = m at w1 w2 w3 w4
      by_cases hs : m.Size > 0
      · rw [if_pos hs, if_pos hs]
        have e1 : (if alo < m.A ∧ blo < m.B then matchBlocks a b fuel alo m.A blo m.B matched
              else matched)
            = (if alo < m.A ∧ blo < m.B then matchBlocks a b fuel' alo m.A blo m.B matched
              else matched) := by
          by_cases hc : alo < m.A ∧ blo < m.B
          · rw [if_pos hc, if_pos hc]
            exact ih fuel' alo m.A blo m.B matched (by omega) (by omega) (by omega) (by omega)
          · rw [if_neg hc, if_neg hc]
        rw [e1]
        by_cases hc : m.A + m.Size < ahi ∧ m.B + m.Size < bhi
        · rw [if_pos hc, if_pos hc]
          exact ih fuel' _ _ _ _ _ (by omega) (by omega) (by omega) (by omega)
        · rw [if_neg hc, if_neg hc]
      · rw [if_neg hs, if_neg hs]

/-- The bound `len(a) + 1` that `getMatchingBlocks` gives `matchBlocks` is enough: every
larger bound gives the same blocks. -/
theorem getMatchingBlocks_fuel (a b : List GoString) (fuel : Nat) (h : a.length < fuel) :
    matchBlocks a b fuel 0 a.length 0 b.length []
      = matchBlocks a b (a.length + 1) 0 a.length 0 b.length [] :=
  matchBlocks_fuel a b fuel (a.length + 1) 0 a.length 0 b.length [] (Nat.zero_le _)
    (Nat.zero_le _) (by omega) (by omega)

/-! ## The opcodes of two different sequences contain a change -/

theorem opCodesLoop_subset (blocks : List Match) (i j : Nat) (ops : List OpCode) :
    ∀ c ∈ ops, c ∈ opCodesLoop blocks i j ops := by
  induction blocks generalizing i j ops with
  | nil => intro c hc; exact hc
  | cons m rest ih =>
    intro c hc
    unfold opCodesLoop
    simp only
    apply ih
    split <;> split <;> try split <;> try split
    all_goals simp [hc]

theorem opCodesLoop_cons_mem (m : Match) (rest : List Match) (i j : Nat) (ops : List OpCode)
    (c : OpCode)
    (hc : c ∈ (if i < m.A ∧ j < m.B then ops ++ [OpCode.mk 'r' i m.A j m.B]
      else if i < m.A then ops ++ [OpCode.mk 'd' i m.A j m.B]
      else if j < m.B then ops ++ [OpCode.mk 'i' i m.A j m.B]
      else ops)) :
    c ∈ opCodesLoop (m :: rest) i j ops := by
  unfold opCodesLoop
  simp only
  apply opCodesLoop_subset
  split
  · exact List.mem_append_left _ hc
  · exact hc

theorem opCodesLoop_all_equal (a b : List GoString) (blocks : List Match) (i : Nat)
    (ops : List OpCode) (hall : ∀ c ∈ opCodesLoop blocks i i ops, c.Tag = 'e')
    (hpw : blocks.Pairwise Match.Before)
    (hv : ∀ m ∈ blocks, m.Valid a b ∧ i ≤ m.A ∧ i ≤ m.B)
    (hpre : ∀ t, t < i → a.getD t [] = b.getD t [])
    (last : Match) (hlast : blocks.getLast? = some last) :
    last.A = last.B ∧ ∀ t, t < last.A + last.Size → a.getD t [] = b.getD t [] := by
  induction blocks generalizing i ops with
  | nil => simp at hlast
  | cons m rest ih =>
    obtain ⟨mv, m1, m2⟩ := hv m (List.mem_cons_self _ _)
    have hA : ¬ i < m.A := by
      intro h
      by_cases hB : i < m.B
      · have := hall (OpCode.mk 'r' i m.A i m.B)
          (opCodesLoop_cons_mem m rest i i ops _ (by simp [h, hB]))
        simp only at this
        revert this; decide
      · have := hall (OpCode.mk 'd' i m.A i m.B)
          (opCodesLoop_cons_mem m rest i i ops _ (by simp [h, hB]))
        simp only at this
        revert this; decide
    have hB : ¬ i < m.B := by
      intro h
      have := hall (OpCode.mk 'i' i m.A i m.B)
        (opCodesLoop_cons_mem m rest i i ops _ (by simp [h, hA]))
      simp only at this
      revert this; decide
    have eA : m.A = i := by omega
    have eB : m.B = i := by omega
    have hpre' : ∀ t, t < i + m.Size → a.getD t [] = b.getD t [] := by
      intro t ht
      by_cases hti : t < i
      · exact hpre t hti
      · have := mv (t - i) (by omega)
        rw [eA, eB] at this
        have e : i + (t - i) = t := by omega
        rw [e] at this; exact this
    cases rest with
    | nil =>
      simp only [List.getLast?_singleton, Option.some.injEq] at hlast
      subst hlast
      exact ⟨by omega, by rw [eA]; exact hpre'⟩
    | cons x xs =>
      rw [List.getLast?_cons_cons] at hlast
      rw [List.pairwise_cons] at hpw
      unfold opCodesLoop at hall
      simp only at hall
      rw [eA, eB] at hall
      refine ih (i + m.Size) _ hall hpw.2 ?_ hpre' hlast
      intro y hy
      obtain ⟨y1, y2⟩ := hpw.1 y hy
      exact ⟨(hv y (List.mem_cons_of_mem _ hy)).1, by omega, by omega⟩

theorem getOpCodes_exists_change (a b : List GoString) (hne : a ≠ b) :
    ∃ c ∈ getOpCodes a b, c.Tag ≠ 'e' := by
  by_contra hcon
  push_neg at hcon
  obtain ⟨blocks, e, hv, hpw⟩ := getMatchingBlocks_spec a b
  unfold getOpCodes at hcon
  rw [e] at hcon
  obtain ⟨h1, h2⟩ := opCodesLoop_all_equal a b _ 0 [] hcon hpw
    (fun m hm => ⟨hv m hm, Nat.zero_le _, Nat.zero_le _⟩)
    (fun t ht => absurd ht (Nat.not_lt_zero _)) ⟨a.length, b.length, 0⟩
    (List.getLast?_concat _)
  simp only [Nat.add_zero] at h1 h2
  apply hne
  apply List.ext_getElem h1
  intro n hn1 hn2
  have := h2 n hn1
  rwa [List.getD_eq_getElem _ _ hn1, List.getD_eq_getElem _ _ hn2] at this

/-! ## Different contents give a non-empty unified diff -/

theorem stringsSplitAfter_ne_nil (s : GoString) : stringsSplitAfter s ≠ [] := by
  cases s with
  | nil => simp [stringsSplitAfter]
  | cons c cs =>
    unfold stringsSplitAfter
    split
    · simp
    · split <;> simp

theorem stringsSplitAfter_flatten (s : GoString) : (stringsSplitAfter s).flatten = s := by
  induction s with
  | nil => simp [stringsSplitAfter]
  | cons c cs ih =>
    unfold stringsSplitAfter
    split
    · simp [ih]
    · split
      · next h => exact absurd h (stringsSplitAfter_ne_nil cs)
      · next l ls h =>
        rw [h] at ih
        simp only [List.flatten_cons] at ih ⊢
        rw [List.cons_append, ih]

theorem splitLines_flatten (s : GoString) : (splitLines s).flatten = s ++ [nl] := by
  unfold splitLines
  simp only
  rcases List.eq_nil_or_concat (stringsSplitAfter s) with h | ⟨L, l, h⟩
  · exact absurd h (stringsSplitAfter_ne_nil s)
  · have hf := stringsSplitAfter_flatten s
    rw [List.concat_eq_append] at h
    rw [h] at hf ⊢
    simp only [List.dropLast_concat, List.getLastD_concat, List.flatten_append,
      List.flatten_cons, List.flatten_nil, List.append_nil] at hf ⊢
    rw [← List.append_assoc, hf]

theorem splitLines_injective (s t : GoString) (h : splitLines s = splitLines t) : s = t := by
  have h1 := splitLines_flatten s
  rw [h, splitLines_flatten t] at h1
  exact (List.append_left_inj [nl]).mp h1.symm

theorem groupLoop_nonempty (n : Nat) (rest : List OpCode) (groups : List (List OpCode))
    (group : List OpCode)
    (h : (∃ c ∈ rest, c.Tag ≠ 'e') ∨ (∃ c ∈ group, c.Tag ≠ 'e') ∨ groups ≠ []) :
    (groupLoop n rest groups group).1 ≠ []
    ∨ ∃ c ∈ (groupLoop n rest groups group).2, c.Tag ≠ 'e' := by
  induction rest generalizing groups group with
  | nil =>
    rcases h with ⟨c, hc, _⟩ | h | h
    · simp at hc
    · exact Or.inr h
    · exact Or.inl h
  | cons c rest ih =>
    unfold groupLoop
    split
    · next hflush =>
      apply ih
      exact Or.inr (Or.inr (by simp))
    · next hkeep =>
      apply ih
      rcases h with ⟨x, hx, hxe⟩ | ⟨x, hx, hxe⟩ | h
      · rcases List.mem_cons.mp hx with hx | hx
        · subst hx
          exact Or.inr (Or.inl ⟨x, by simp, hxe⟩)
        · exact Or.inl ⟨x, hx, hxe⟩
      · exact Or.inr (Or.inl ⟨x, by simp [hx], hxe⟩)
      · exact Or.inr (Or.inr h)

theorem trimFirst_change (n : Nat) (codes : List OpCode) (h : ∃ c ∈ codes, c.Tag ≠ 'e') :
    ∃ c ∈ trimFirst n codes, c.Tag ≠ 'e' := by
  obtain ⟨x, hx, hxe⟩ := h
  cases codes with
  | nil => simp at hx
  | cons c rest =>
    simp only [trimFirst]
    by_cases hc : c.Tag = 'e'
    · rw [if_pos hc]
      rcases List.mem_cons.mp hx with hx | hx
      · subst hx; exact absurd hc hxe
      · exact ⟨x, List.mem_cons_of_mem _ hx, hxe⟩
    · rw [if_neg hc]
      exact ⟨x, hx, hxe⟩

theorem trimLast_change (n : Nat) (codes : List OpCode) (h : ∃ c ∈ codes, c.Tag ≠ 'e') :
    ∃ c ∈ trimLast n codes, c.Tag ≠ 'e' := by
  obtain ⟨x, hx, hxe⟩ := h
  unfold trimLast
  rcases List.eq_nil_or_concat codes with hnil | ⟨L, l, hl⟩
  · subst hnil; simp at hx
  · rw [List.concat_eq_append] at hl
    subst hl
    simp only [List.getLast?_concat, List.dropLast_concat]
    by_cases hc : l.Tag = 'e'
    · rw [if_pos hc]
      simp only [List.mem_append, List.mem_singleton] at hx
      rcases hx with hx | hx
      · exact ⟨x, by simp [hx], hxe⟩
      · subst hx; exact absurd hc hxe
    · rw [if_neg hc]
      exact ⟨x, hx, hxe⟩

theorem getGroupedOpCodes_ne_nil (a b : List GoString) (n : Nat) (hne : a ≠ b) :
    getGroupedOpCodes a b n ≠ [] := by
  obtain ⟨x, hx, hxe⟩ := getOpCodes_exists_change a b hne
  unfold getGroupedOpCodes
  simp only
  have hnn : getOpCodes a b ≠ [] := List.ne_nil_of_mem hx
  rw [if_neg hnn]
  have h3 := trimLast_change n _ (trimFirst_change n _ ⟨x, hx, hxe⟩)
  have h4 := groupLoop_nonempty n _ [] [] (Or.inl h3)
  generalize groupLoop n (trimLast n (trimFirst n (getOpCodes a b))) [] [] = st at h4
  rcases h4 with h4 | ⟨c, hc, hce⟩
  · split
    · simp
    · exact h4
  · rw [if_pos]
    · simp
    · refine ⟨List.length_pos_of_mem hc, ?_⟩
      rintro ⟨hlen, hhead⟩
      obtain ⟨y, hy⟩ := List.length_eq_one.mp hlen
      rw [hy] at hc hhead
      simp only [List.mem_singleton] at hc
      subst hc
      simp only [List.map_cons, List.map_nil, List.head?_cons, Option.some.injEq] at hhead
      exact hce hhead

theorem writeGroups_header (A B : List GoString) (FromFile ToFile : GoString)
    (groups : List (List OpCode)) (hg : groups ≠ []) (hf : FromFile ≠ []) :
    ∃ rest, writeGroups A B FromFile ToFile false groups
      = lit "--- " ++ FromFile ++ nl :: (lit "+++ " ++ ToFile ++ nl :: (lit "@@" ++ rest)) := by
  cases groups with
  | nil => exact absurd rfl hg
  | cons g gs =>
    unfold writeGroups
    simp only [Bool.not_false, true_and, ne_eq, hf, not_false_eq_true, true_or, if_true]
    have h2 : lit "@@ -" = lit "@@" ++ lit " -" := by decide
    rw [h2]
    exact ⟨_, by simp only [List.append_assoc, List.singleton_append, List.cons_append,
      List.nil_append]; rfl⟩

theorem filepathBase_ne_nil (p : GoString) : filepathBase p ≠ [] := by
  unfold filepathBase
  split
  · decide
  · simp only
    split
    · decide
    · next h => exact h

/-! ## Lines of a text -/

theorem stringsSplit_ne_nil (sep : UInt8) (s : GoString) : stringsSplit sep s ≠ [] := by
  cases s with
  | nil => simp [stringsSplit]
  | cons c cs =>
    unfold stringsSplit
    split
    · simp
    · split <;> simp

theorem stringsSplit_cons_ne (sep c : UInt8) (cs l : GoString) (ls : List GoString)
    (hc : c ≠ sep) (h : stringsSplit sep cs = l :: ls) :
    stringsSplit sep (c :: cs) = (c :: l) :: ls := by
  rw [stringsSplit, if_neg hc, h]

theorem stringsSplit_cons_sep (sep : UInt8) (cs : GoString) :
    stringsSplit sep (sep :: cs) = [] :: stringsSplit sep cs := by
  rw [stringsSplit, if_pos rfl]

theorem stringsSplit_append_sep (sep : UInt8) (p q : GoString) :
    stringsSplit sep (p ++ sep :: q) = stringsSplit sep p ++ stringsSplit sep q := by
  induction p with
  | nil => simp [stringsSplit_cons_sep, stringsSplit]
  | cons c cs ih =>
    by_cases hc : c = sep
    · subst hc
      rw [List.cons_append, stringsSplit_cons_sep, stringsSplit_cons_sep, ih, List.cons_append]
    · obtain ⟨l, ls, hl⟩ := List.exists_cons_of_ne_nil (stringsSplit_ne_nil sep cs)
      rw [List.cons_append, stringsSplit_cons_ne sep c cs l ls hc hl,
        stringsSplit_cons_ne sep c (cs ++ sep :: q) l (ls ++ stringsSplit sep q) hc
          (by rw [ih, hl, List.cons_append]), List.cons_append]

theorem stringsSplit_head (sep : UInt8) (x r : GoString) (hx : sep ∉ x) :
    ∃ l ls, stringsSplit sep (x ++ r) = (x ++ l) :: ls := by
  induction x with
  | nil =>
    obtain ⟨l, ls, hl⟩ := List.exists_cons_of_ne_nil (stringsSplit_ne_nil sep r)
    exact ⟨l, ls, by simpa using hl⟩
  | cons c cs ih =>
    have hc : c ≠ sep := fun h => hx (by simp [h])
    obtain ⟨l, ls, hl⟩ := ih (fun h => hx (List.mem_cons_of_mem _ h))
    exact ⟨l, ls, by rw [List.cons_append, stringsSplit_cons_ne sep c _ _ ls hc hl,
      List.cons_append]⟩

theorem stringsSplit_of_not_mem (sep : UInt8) (s : GoString) (h : sep ∉ s) :
    stringsSplit sep s = [s] := by
  induction s with
  | nil => simp [stringsSplit]
  | cons c cs ih =>
    have hc : c ≠ sep := fun hh => h (by simp [hh])
    exact stringsSplit_cons_ne sep c cs cs [] hc (ih (fun hh => h (List.mem_cons_of_mem _ hh)))

theorem stringsSplit_no_sep (sep : UInt8) (s : GoString) :
    ∀ l ∈ stringsSplit sep s, sep ∉ l := by
  induction s with
  | nil => simp [stringsSplit]
  | cons c cs ih =>
    by_cases hc : c = sep
    · subst hc
      rw [stringsSplit_cons_sep]
      intro l hl
      rcases List.mem_cons.mp hl with hl | hl
      · subst hl; simp
      · exact ih l hl
    · obtain ⟨l0, ls, hl0⟩ := List.exists_cons_of_ne_nil (stringsSplit_ne_nil sep cs)
      rw [stringsSplit_cons_ne sep c cs l0 ls hc hl0]
      rw [hl0] at ih
      intro l hl
      rcases List.mem_cons.mp hl with hl | hl
      · subst hl
        intro hm
        rcases List.mem_cons.mp hm with hm | hm
        · exact hc hm.symm
        · exact ih l0 (by simp) hm
      · exact ih l (List.mem_cons_of_mem _ hl)

theorem stringsSplit_join (sep : UInt8) (ls : List GoString) (hne : ls ≠ [])
    (h : ∀ l ∈ ls, sep ∉ l) : stringsSplit sep (stringsJoin sep ls) = ls := by
  induction ls with
  | nil => exact absurd rfl hne
  | cons l rest ih =>
    cases rest with
    | nil => exact stringsSplit_of_not_mem sep l (h l (by simp))
    | cons l2 rest =>
      rw [stringsJoin, stringsSplit_append_sep, stringsSplit_of_not_mem sep l (h l (by simp)),
        ih (by simp) (fun x hx => h x (List.mem_cons_of_mem _ hx))]
      rfl

theorem stringsJoin_split (sep : UInt8) (s : GoString) :
    stringsJoin sep (stringsSplit sep s) = s := by
  induction s with
  | nil => simp [stringsSplit, stringsJoin]
  | cons c cs ih =>
    obtain ⟨l0, ls, hl0⟩ := List.exists_cons_of_ne_nil (stringsSplit_ne_nil sep cs)
    by_cases hc : c = sep
    · subst hc
      rw [stringsSplit_cons_sep, hl0, stringsJoin, ← hl0, ih]
      rfl
    · rw [stringsSplit_cons_ne sep c cs l0 ls hc hl0]
      rw [hl0] at ih
      cases ls with
      | nil =>
        simp only [stringsJoin] at ih ⊢
        rw [ih]
      | cons l1 ls =>
        simp only [stringsJoin] at ih ⊢
        rw [List.cons_append, ih]

theorem mem_stringsJoin_infix (sep : UInt8) (ls : List GoString) (l : GoString) (h : l ∈ ls) :
    l <:+: stringsJoin sep ls := by
  induction ls with
  | nil => simp at h
  | cons l0 rest ih =>
    cases rest with
    | nil =>
      simp only [List.mem_singleton] at h
      subst h
      exact List.infix_refl _
    | cons l1 rest =>
      rw [stringsJoin]
      rcases List.mem_cons.mp h with h | h
      · subst h
        exact (List.prefix_append _ _).isInfix
      · have := ih h
        exact this.trans (List.suffix_append l0 (sep :: stringsJoin sep (l1 :: rest)) |>.isInfix
          |> fun hh => (List.suffix_cons sep _).isInfix.trans hh)

theorem hasLine_start (x r : GoString) (hx : nl ∉ x) : HasLine (x ++ r) x := by
  obtain ⟨l, ls, h⟩ := stringsSplit_head nl x r hx
  exact ⟨x ++ l, by rw [h]; simp, List.prefix_append _ _⟩

theorem hasLine_after (p q x : GoString) (h : HasLine q x) : HasLine (p ++ nl :: q) x := by
  obtain ⟨l, hl, hp⟩ := h
  exact ⟨l, by rw [stringsSplit_append_sep]; exact List.mem_append_right _ hl, hp⟩

theorem hasLine_contains (msg x : GoString) (h : HasLine msg x) : stringsContains msg x := by
  obtain ⟨l, hl, hp⟩ := h
  have h1 := mem_stringsJoin_infix nl _ l hl
  rw [stringsJoin_split] at h1
  exact hp.isInfix.trans h1

theorem colorizeLine_no_nl (l : GoString) (h : nl ∉ l) : nl ∉ colorizeLine l := by
  have hb : nl ∉ ansiBold := by decide
  have hc : nl ∉ ansiCyan := by decide
  have hr : nl ∉ ansiRed := by decide
  have hg : nl ∉ ansiGreen := by decide
  have h0 : nl ∉ ansiReset := by decide
  unfold colorizeLine
  split
  · simp [List.mem_append, hb, h, h0]
  · split
    · simp [List.mem_append, hc, h, h0]
    · split
      · simp [List.mem_append, hr, h, h0]
      · split
        · simp [List.mem_append, hg, h, h0]
        · exact h

theorem stringsSplit_colorize (out : GoString) :
    stringsSplit nl (colorizeUnifiedDiff out) = (stringsSplit nl out).map colorizeLine := by
  unfold colorizeUnifiedDiff
  apply stringsSplit_join
  · simpa using stringsSplit_ne_nil nl out
  · intro l hl
    obtain ⟨l0, hl0, rfl⟩ := List.mem_map.mp hl
    exact colorizeLine_no_nl l0 (stringsSplit_no_sep nl out l0 hl0)

theorem colorizeLine_header (l : GoString) (h : lit "--- " <+: l ∨ lit "+++ " <+: l) :
    colorizeLine l = ansiBold ++ l ++ ansiReset := by
  unfold colorizeLine
  rw [if_pos]
  simp only [stringsHasPrefix, Bool.or_eq_true, List.isPrefixOf_iff_prefix]
  exact h

theorem hasLine_colorize (out x : GoString) (hx : x = lit "--- " ∨ x = lit "+++ ")
    (h : HasLine out x) : HasLine (colorizeUnifiedDiff out) (ansiBold ++ x) := by
  obtain ⟨l, hl, hp⟩ := h
  refine ⟨colorizeLine l, ?_, ?_⟩
  · rw [stringsSplit_colorize]
    exact List.mem_map_of_mem _ hl
  · rw [colorizeLine_header l (by rcases hx with hx | hx <;> subst hx <;> simp [hp])]
    obtain ⟨t, ht⟩ := hp
    exact ⟨t ++ ansiReset, by rw [← ht]; simp⟩

theorem formatDiffMessageUnified_eq (expectedPath actualPath : GoString)
    (expected actual : List UInt8) (colorize : Bool) :
    formatDiffMessageUnified expectedPath actualPath expected actual colorize
      = if colorize then colorizeUnifiedDiff (plainDiff expectedPath actualPath expected actual)
        else plainDiff expectedPath actualPath expected actual := by
  unfold formatDiffMessageUnified plainDiff getUnifiedDiffString
  simp only [filepathBase_ne_nil, if_false]

theorem plainDiff_header (expectedPath actualPath : GoString) (expected actual : List UInt8)
    (hne : expected ≠ actual) :
    ∃ rest, plainDiff expectedPath actualPath expected actual
      = lit "--- " ++ filepathBase expectedPath
        ++ nl :: (lit "+++ " ++ filepathBase actualPath ++ nl :: (lit "@@" ++ rest)) :=
  writeGroups_header _ _ _ _ _
    (getGroupedOpCodes_ne_nil _ _ 3 (fun h => hne (splitLines_injective _ _ h)))
    (filepathBase_ne_nil expectedPath)

theorem plainDiff_lines (expectedPath actualPath : GoString) (expected actual : List UInt8)
    (hne : expected ≠ actual) :
    HasLine (plainDiff expectedPath actualPath expected actual) (lit "--- ")
    ∧ HasLine (plainDiff expectedPath actualPath expected actual) (lit "+++ ")
    ∧ HasLine (plainDiff expectedPath actualPath expected actual) (lit "@@") := by
  obtain ⟨rest, h⟩ := plainDiff_header expectedPath actualPath expected actual hne
  rw [h]
  refine ⟨?_, ?_, ?_⟩
  · rw [List.append_assoc]
    exact hasLine_start _ _ (by decide)
  · apply hasLine_after
    rw [List.append_assoc]
    exact hasLine_start _ _ (by decide)
  · apply hasLine_after
    apply hasLine_after
    exact hasLine_start _ _ (by decide)

theorem diffAssertion_fail (quote : GoString → GoString) (e : assertionExecutor)
    (a : AssertionGoldenFile) (g : GoldenFiles)
    (h : (resolveAndReadGoldenFile quote e a).2 = .ok g)
    (hne : g.expectedBytes ≠ g.actualBytes) :
    executeAssertionsDiff quote e [a] = [⟨a.Name, .Fail,
      formatDiffMessageUnified g.expectedPath g.actualPath g.expectedBytes g.actualBytes
        e.colorize⟩] := by
  simp [executeAssertionsDiff_eq_map, diffAssertion, h, hne, NewAssertionResult]

/-! ## Claims about the unified-diff message -/

/-- C2 as stated fails when colorization is on: for golden `a\n` against render `b\n` the
Fail message has its header lines wrapped in the bold code, so no line of it begins with
`--- ` or with `+++ `. -/
theorem header_lines_not_plain_when_colorized :
    executeAssertionsDiff id (testExecutor (lit "a\n") (lit "b\n") true) [testAssertion]
      = [⟨testAssertion.Name, .Fail,
          lit ("\x1b[1m--- golden.yaml\x1b[0m\n\x1b[1m+++ render.yaml\x1b[0m\n"
            ++ "\x1b[36m@@ -1,2 +1,2 @@\x1b[0m\n\x1b[31m-a\x1b[0m\n\x1b[32m+b\x1b[0m\n \n")⟩]
    ∧ ¬ HasLine (formatDiffMessageUnified (lit "/suite/golden.yaml") (lit "/out/render.yaml")
          (lit "a\n") (lit "b\n") true) (lit "--- ")
    ∧ ¬ HasLine (formatDiffMessageUnified (lit "/suite/golden.yaml") (lit "/out/render.yaml")
          (lit "a\n") (lit "b\n") true) (lit "+++ ") := by
  decide

/-- C2, amended: for every two byte sequences that differ (in a byte, in a trailing newline
or in length) the Fail message contains `--- ` and `+++ `; with colorization off it has a
line beginning with `--- ` and a line beginning with `+++ `, and with colorization on it has
these two header lines wrapped in the bold code (a line beginning with ESC[1m followed by
`--- `, and one with ESC[1m followed by `+++ `).  It is the message of the Fail result of
`executeAssertionsDiff`. -/
theorem formatDiffMessageUnified_header_lines (expectedPath actualPath : GoString)
    (expected actual : List UInt8) (colorize : Bool) (hne : expected ≠ actual) :
    stringsContains
        (formatDiffMessageUnified expectedPath actualPath expected actual colorize) (lit "--- ")
    ∧ stringsContains
        (formatDiffMessageUnified expectedPath actualPath expected actual colorize) (lit "+++ ")
    ∧ (colorize = false →
        HasLine (formatDiffMessageUnified expectedPath actualPath expected actual colorize)
          (lit "--- ")
        ∧ HasLine (formatDiffMessageUnified expectedPath actualPath expected actual colorize)
          (lit "+++ "))
    ∧ (colorize = true →
        HasLine (formatDiffMessageUnified expectedPath actualPath expected actual colorize)
          (ansiBold ++ lit "--- ")
        ∧ HasLine (formatDiffMessageUnified expectedPath actualPath expected actual colorize)
          (ansiBold ++ lit "+++ "))
    ∧ (∀ (quote : GoString → GoString) (e : assertionExecutor) (a : AssertionGoldenFile),
        (resolveAndReadGoldenFile quote e a).2
            = .ok ⟨expectedPath, actualPath, expected, actual⟩ →
        e.colorize = colorize →
        executeAssertionsDiff quote e [a] = [⟨a.Name, .Fail,
          formatDiffMessageUnified expectedPath actualPath expected actual colorize⟩]) := by
  obtain ⟨h1, h2, _⟩ := plainDiff_lines expectedPath actualPath expected actual hne
  rw [formatDiffMessageUnified_eq]
  have last : ∀ (quote : GoString → GoString) (e : assertionExecutor) (a : AssertionGoldenFile),
        (resolveAndReadGoldenFile quote e a).2
            = .ok ⟨expectedPath, actualPath, expected, actual⟩ →
        e.colorize = colorize →
        executeAssertionsDiff quote e [a] = [⟨a.Name, .Fail,
          if colorize then colorizeUnifiedDiff (plainDiff expectedPath actualPath expected actual)
          else plainDiff expectedPath actualPath expected actual⟩] := by
    intro quote e a hr hc
    rw [diffAssertion_fail quote e a _ hr hne, formatDiffMessageUnified_eq, hc]
  cases colorize with
  | false =>
    simp only [Bool.false_eq_true, if_false, true_implies, false_implies, true_and, and_true]
      at last ⊢
    exact ⟨hasLine_contains _ _ h1, hasLine_contains _ _ h2, ⟨h1, h2⟩, last⟩
  | true =>
    simp only [if_true, true_implies, Bool.true_eq_false, false_implies, true_and] at last ⊢
    have c1 := hasLine_colorize _ _ (Or.inl rfl) h1
    have c2 := hasLine_colorize _ _ (Or.inr rfl) h2
    refine ⟨?_, ?_, ⟨c1, c2⟩, last⟩
    · exact (List.suffix_append ansiBold (lit "--- ")).isInfix.trans (hasLine_contains _ _ c1)
    · exact (List.suffix_append ansiBold (lit "+++ ")).isInfix.trans (hasLine_contains _ _ c2)

/-- C2, amended, at the repository's test "fail when files differ" (`expected\n` against
`actual\n`, colorization off). -/
theorem formatDiffMessageUnified_header_lines_witness :
    HasLine (formatDiffMessageUnified (lit "/suite/golden.yaml") (lit "/out/render.yaml")
        (lit "expected\n") (lit "actual\n") false) (lit "--- ")
    ∧ HasLine (formatDiffMessageUnified (lit "/suite/golden.yaml") (lit "/out/render.yaml")
        (lit "expected\n") (lit "actual\n") false) (lit "+++ ") :=
  (formatDiffMessageUnified_header_lines (lit "/suite/golden.yaml") (lit "/out/render.yaml")
    (lit "expected\n") (lit "actual\n") false (by decide)).2.2.1 rfl

/-! ## Escape codes in the message -/

theorem esc_not_mem_digitsRev (fuel n : Nat) : esc ∉ digitsRev fuel n := by
  have hd : ∀ d, d < 10 → UInt8.ofNat (48 + d) ≠ esc := by decide
  induction fuel generalizing n with
  | zero => simp [digitsRev]
  | succ fuel ih =>
    unfold digitsRev
    split
    · next h =>
      simp only [List.mem_singleton]
      exact fun hh => hd n h hh.symm
    · simp only [List.mem_cons, not_or]
      exact ⟨fun hh => hd (n % 10) (Nat.mod_lt _ (by decide)) hh.symm, ih _⟩

theorem esc_not_mem_fmtInt (n : Nat) : esc ∉ fmtInt n := by
  unfold fmtInt
  rw [List.mem_reverse]
  exact esc_not_mem_digitsRev _ _

theorem esc_not_mem_formatRangeUnified (start stop : Nat) :
    esc ∉ formatRangeUnified start stop := by
  have hc : esc ∉ lit "," := by decide
  unfold formatRangeUnified
  simp only
  split
  · exact esc_not_mem_fmtInt _
  · simp only [List.mem_append, not_or]
    exact ⟨⟨esc_not_mem_fmtInt _, hc⟩, esc_not_mem_fmtInt _⟩

theorem esc_not_mem_lines (L : List GoString) (pre : GoString) (hp : esc ∉ pre)
    (hL : ∀ l ∈ L, esc ∉ l) : esc ∉ (L.map (fun line => pre ++ line)).flatten := by
  simp only [List.mem_flatten, List.mem_map, not_exists, not_and]
  rintro x ⟨l, hl, rfl⟩
  simp only [List.mem_append, not_or]
  exact ⟨hp, hL l hl⟩

theorem esc_not_mem_writeOpCode (A B : List GoString) (c : OpCode)
    (hA : ∀ l ∈ A, esc ∉ l) (hB : ∀ l ∈ B, esc ∉ l) : esc ∉ writeOpCode A B c := by
  have hA' : ∀ i n, ∀ l ∈ (A.drop i).take n, esc ∉ l :=
    fun i n l hl => hA l (List.mem_of_mem_drop (List.mem_of_mem_take hl))
  have hB' : ∀ i n, ∀ l ∈ (B.drop i).take n, esc ∉ l :=
    fun i n l hl => hB l (List.mem_of_mem_drop (List.mem_of_mem_take hl))
  have h1 : esc ∉ lit " " := by decide
  have h2 : esc ∉ lit "-" := by decide
  have h3 : esc ∉ lit "+" := by decide
  unfold writeOpCode
  split
  · exact esc_not_mem_lines _ _ h1 (hA' _ _)
  · simp only [List.mem_append, not_or]
    constructor
    · split
      · exact esc_not_mem_lines _ _ h2 (hA' _ _)
      · simp
    · split
      · exact esc_not_mem_lines _ _ h3 (hB' _ _)
      · simp

theorem esc_not_mem_writeGroups (A B : List GoString) (FromFile ToFile : GoString)
    (started : Bool) (groups : List (List OpCode))
    (hA : ∀ l ∈ A, esc ∉ l) (hB : ∀ l ∈ B, esc ∉ l) (hF : esc ∉ FromFile)
    (hT : esc ∉ ToFile) : esc ∉ writeGroups A B FromFile ToFile started groups := by
  have h1 : esc ∉ lit "--- " := by decide
  have h2 : esc ∉ lit "+++ " := by decide
  have h3 : esc ∉ lit "@@ -" := by decide
  have h4 : esc ∉ lit " +" := by decide
  have h5 : esc ∉ lit " @@" := by decide
  have h6 : esc ≠ nl := by decide
  induction groups generalizing started with
  | nil => simp [writeGroups]
  | cons g gs ih =>
    unfold writeGroups
    simp only [List.mem_append, not_or]
    refine ⟨⟨⟨?_, ?_⟩, ?_⟩, ih true⟩
    · split
      · simp only [List.mem_append, List.mem_singleton, not_or]
        exact ⟨⟨⟨h1, hF⟩, h6⟩, ⟨h2, hT⟩, h6⟩
      · simp
    · simp only [List.mem_append, List.mem_singleton, not_or]
      exact ⟨⟨⟨⟨⟨h3, esc_not_mem_formatRangeUnified _ _⟩, h4⟩,
        esc_not_mem_formatRangeUnified _ _⟩, h5⟩, h6⟩
    · simp only [List.mem_flatten, List.mem_map, not_exists, not_and]
      rintro x ⟨c, _, rfl⟩
      exact esc_not_mem_writeOpCode A B c hA hB

theorem esc_not_mem_splitLines (s : GoString) (h : esc ∉ s) :
    ∀ l ∈ splitLines s, esc ∉ l := by
  intro l hl hm
  have h1 : esc ∈ (splitLines s).flatten := List.mem_flatten.mpr ⟨l, hl, hm⟩
  rw [splitLines_flatten] at h1
  simp only [List.mem_append, List.mem_singleton] at h1
  rcases h1 with h1 | h1
  · exact h h1
  · revert h1; decide

theorem esc_not_mem_filepathBase (p : GoString) (h : esc ∉ p) : esc ∉ filepathBase p := by
  unfold filepathBase
  split
  · decide
  · simp only
    split
    · decide
    · intro hm
      exact h ((List.rdropWhile_prefix _ _).subset ((List.rtakeWhile_suffix _ _).subset hm))

theorem esc_not_mem_plainDiff (expectedPath actualPath : GoString) (expected actual : List UInt8)
    (h1 : esc ∉ expectedPath) (h2 : esc ∉ actualPath) (h3 : esc ∉ expected)
    (h4 : esc ∉ actual) : esc ∉ plainDiff expectedPath actualPath expected actual :=
  esc_not_mem_writeGroups _ _ _ _ _ _ (esc_not_mem_splitLines _ h3)
    (esc_not_mem_splitLines _ h4) (esc_not_mem_filepathBase _ h1)
    (esc_not_mem_filepathBase _ h2)

theorem not_contains_of_esc_not_mem (msg code : GoString) (hc : esc ∈ code) (h : esc ∉ msg) :
    ¬ stringsContains msg code :=
  fun hin => h (hin.subset hc)

theorem colorize_contains_of_line (out l code : GoString) (hl : l ∈ stringsSplit nl out)
    (hc : colorizeLine l = code ++ l ++ ansiReset) :
    stringsContains (colorizeUnifiedDiff out) code
    ∧ stringsContains (colorizeUnifiedDiff out) ansiReset := by
  have h1 : colorizeLine l <:+: colorizeUnifiedDiff out :=
    mem_stringsJoin_infix nl _ _ (List.mem_map_of_mem _ hl)
  rw [hc] at h1
  constructor
  · exact (List.prefix_append code (l ++ ansiReset)).isInfix.trans
      (by rw [← List.append_assoc]; exact h1)
  · exact (List.suffix_append (code ++ l) ansiReset).isInfix.trans h1

theorem colorizeLine_removed (l : GoString) (h1 : l.head? = some 45)
    (h2 : ¬ lit "--- " <+: l) : colorizeLine l = ansiRed ++ l ++ ansiReset := by
  cases l with
  | nil => simp at h1
  | cons c cs =>
    simp only [List.head?_cons, Option.some.injEq] at h1
    subst h1
    have e1 : lit "+++ " = [43, 43, 43, 32] := by decide
    have e2 : lit "@@" = [64, 64] := by decide
    have h3 : stringsHasPrefix (45 :: cs) (lit "--- ") = false := by
      rw [Bool.eq_false_iff]
      intro hh
      exact h2 (List.isPrefixOf_iff_prefix.mp hh)
    have h4 : stringsHasPrefix (45 :: cs) (lit "+++ ") = false := by
      rw [e1]; simp [stringsHasPrefix, List.isPrefixOf]
    have h5 : stringsHasPrefix (45 :: cs) (lit "@@") = false := by
      rw [e2]; simp [stringsHasPrefix, List.isPrefixOf]
    unfold colorizeLine
    simp [h3, h4, h5]

theorem colorizeLine_added (l : GoString) (h1 : l.head? = some 43)
    (h2 : ¬ lit "+++ " <+: l) : colorizeLine l = ansiGreen ++ l ++ ansiReset := by
  cases l with
  | nil => simp at h1
  | cons c cs =>
    simp only [List.head?_cons, Option.some.injEq] at h1
    subst h1
    have e1 : lit "--- " = [45, 45, 45, 32] := by decide
    have e2 : lit "@@" = [64, 64] := by decide
    have h3 : stringsHasPrefix (43 :: cs) (lit "+++ ") = false := by
      rw [Bool.eq_false_iff]
      intro hh
      exact h2 (List.isPrefixOf_iff_prefix.mp hh)
    have h4 : stringsHasPrefix (43 :: cs) (lit "--- ") = false := by
      rw [e1]; simp [stringsHasPrefix, List.isPrefixOf]
    have h5 : stringsHasPrefix (43 :: cs) (lit "@@") = false := by
      rw [e2]; simp [stringsHasPrefix, List.isPrefixOf]
    unfold colorizeLine
    simp [h3, h4, h5]

set_option maxRecDepth 8000 in
/-- C10 as stated fails in both halves.  With colorization on, a pure insertion (golden `a\n`,
render `a\nb\n`) gives a Fail message without the red code; with colorization off, contents
that hold escape codes themselves give a Fail message that contains all three codes. -/
theorem escape_codes_not_always :
    (executeAssertionsDiff id (testExecutor (lit "a\n") (lit "a\nb\n") true) [testAssertion]
        = [⟨testAssertion.Name, .Fail,
            lit ("\x1b[1m--- golden.yaml\x1b[0m\n\x1b[1m+++ render.yaml\x1b[0m\n"
              ++ "\x1b[36m@@ -1,2 +1,3 @@\x1b[0m\n a\n\x1b[32m+b\x1b[0m\n \n")⟩]
      ∧ ¬ stringsContains
          (formatDiffMessageUnified (lit "/suite/golden.yaml") (lit "/out/render.yaml")
            (lit "a\n") (lit "a\nb\n") true) ansiRed)
    ∧ (executeAssertionsDiff id
          (testExecutor (lit "\x1b[31mx\x1b[0m\n") (lit "\x1b[32my\x1b[0m\n") false)
          [testAssertion]
        = [⟨testAssertion.Name, .Fail,
            lit ("--- golden.yaml\n+++ render.yaml\n@@ -1,2 +1,2 @@\n"
              ++ "-\x1b[31mx\x1b[0m\n+\x1b[32my\x1b[0m\n \n")⟩]
      ∧ stringsContains
          (formatDiffMessageUnified (lit "/suite/golden.yaml") (lit "/out/render.yaml")
            (lit "\x1b[31mx\x1b[0m\n") (lit "\x1b[32my\x1b[0m\n") false) ansiRed
      ∧ stringsContains
          (formatDiffMessageUnified (lit "/suite/golden.yaml") (lit "/out/render.yaml")
            (lit "\x1b[31mx\x1b[0m\n") (lit "\x1b[32my\x1b[0m\n") false) ansiGreen
      ∧ stringsContains
          (formatDiffMessageUnified (lit "/suite/golden.yaml") (lit "/out/render.yaml")
            (lit "\x1b[31mx\x1b[0m\n") (lit "\x1b[32my\x1b[0m\n") false) ansiReset) := by
  decide

/-- C10, amended: for differing contents, the Fail message with colorization on always
contains the reset code; it contains the red code whenever the uncoloured diff has a line
that begins with `-` but not with `--- `, and the green code whenever it has a line that
begins with `+` but not with `+++ `.  With colorization off the message is the uncoloured
diff, and it contains none of the three codes provided the escape byte occurs in neither
content and in neither path. -/
theorem formatDiffMessageUnified_escape_codes (expectedPath actualPath : GoString)
    (expected actual : List UInt8) (hne : expected ≠ actual) :
    stringsContains (formatDiffMessageUnified expectedPath actualPath expected actual true)
      ansiReset
    ∧ (∀ l ∈ stringsSplit nl (plainDiff expectedPath actualPath expected actual),
        l.head? = some 45 → ¬ lit "--- " <+: l →
        stringsContains (formatDiffMessageUnified expectedPath actualPath expected actual true)
          ansiRed)
    ∧ (∀ l ∈ stringsSplit nl (plainDiff expectedPath actualPath expected actual),
        l.head? = some 43 → ¬ lit "+++ " <+: l →
        stringsContains (formatDiffMessageUnified expectedPath actualPath expected actual true)
          ansiGreen)
    ∧ formatDiffMessageUnified expectedPath actualPath expected actual false
        = plainDiff expectedPath actualPath expected actual
    ∧ (esc ∉ expectedPath → esc ∉ actualPath → esc ∉ expected → esc ∉ actual →
        ¬ stringsContains
            (formatDiffMessageUnified expectedPath actualPath expected actual false) ansiReset
        ∧ ¬ stringsContains
            (formatDiffMessageUnified expectedPath actualPath expected actual false) ansiRed
        ∧ ¬ stringsContains
            (formatDiffMessageUnified expectedPath actualPath expected actual false) ansiGreen)
    ∧ (∀ (quote : GoString → GoString) (e : assertionExecutor) (a : AssertionGoldenFile),
        (resolveAndReadGoldenFile quote e a).2
            = .ok ⟨expectedPath, actualPath, expected, actual⟩ →
        executeAssertionsDiff quote e [a] = [⟨a.Name, .Fail,
          formatDiffMessageUnified expectedPath actualPath expected actual e.colorize⟩]) := by
  simp only [formatDiffMessageUnified_eq, if_true, Bool.false_eq_true, if_false, true_and]
  refine ⟨?_, ?_, ?_, ?_, ?_⟩
  · obtain ⟨l, hl, hp⟩ := (plainDiff_lines expectedPath actualPath expected actual hne).1
    exact (colorize_contains_of_line _ l ansiBold hl (colorizeLine_header l (Or.inl hp))).2
  · intro l hl h1 h2
    exact (colorize_contains_of_line _ l ansiRed hl (colorizeLine_removed l h1 h2)).1
  · intro l hl h1 h2
    exact (colorize_contains_of_line _ l ansiGreen hl (colorizeLine_added l h1 h2)).1
  · intro h1 h2 h3 h4
    have hn := esc_not_mem_plainDiff expectedPath actualPath expected actual h1 h2 h3 h4
    exact ⟨not_contains_of_esc_not_mem _ _ (by decide) hn,
      not_contains_of_esc_not_mem _ _ (by decide) hn,
      not_contains_of_esc_not_mem _ _ (by decide) hn⟩
  · intro quote e a hr
    rw [diffAssertion_fail quote e a _ hr hne, formatDiffMessageUnified_eq]

/-- C10, amended, at the repository's test "colorize adds ANSI codes when true" (`a\n`
against `b\n`): the uncoloured diff has the lines `-a` and `+b`, so the coloured message
contains reset, red and green, and the uncoloured one contains none of them. -/
theorem formatDiffMessageUnified_escape_codes_witness :
    (stringsContains (formatDiffMessageUnified (lit "/suite/golden.yaml")
        (lit "/out/render.yaml") (lit "a\n") (lit "b\n") true) ansiReset
      ∧ stringsContains (formatDiffMessageUnified (lit "/suite/golden.yaml")
        (lit "/out/render.yaml") (lit "a\n") (lit "b\n") true) ansiRed
      ∧ stringsContains (formatDiffMessageUnified (lit "/suite/golden.yaml")
        (lit "/out/render.yaml") (lit "a\n") (lit "b\n") true) ansiGreen)
    ∧ (¬ stringsContains (formatDiffMessageUnified (lit "/suite/golden.yaml")
        (lit "/out/render.yaml") (lit "a\n") (lit "b\n") false) ansiReset
      ∧ ¬ stringsContains (formatDiffMessageUnified (lit "/suite/golden.yaml")
        (lit "/out/render.yaml") (lit "a\n") (lit "b\n") false) ansiRed
      ∧ ¬ stringsContains (formatDiffMessageUnified (lit "/suite/golden.yaml")
        (lit "/out/render.yaml") (lit "a\n") (lit "b\n") false) ansiGreen) :=
  have h := formatDiffMessageUnified_escape_codes (lit "/suite/golden.yaml")
    (lit "/out/render.yaml") (lit "a\n") (lit "b\n") (by decide)
  ⟨⟨h.1, h.2.1 (lit "-a") (by decide) (by decide) (by decide),
      h.2.2.1 (lit "+b") (by decide) (by decide) (by decide)⟩,
    h.2.2.2.2.1 (by decide) (by decide) (by decide) (by decide)⟩

/-! ## The repository's tests, replayed on the embedding -/

/-- The table of `TestUniqueBaseNamesForPaths`. -/
theorem test_uniqueBaseNamesForPaths :
    uniqueBaseNamesForPaths none = none
    ∧ uniqueBaseNamesForPaths (some []) = some []
    ∧ uniqueBaseNamesForPaths (some [lit "/single/xrd.yaml"]) = some [lit "xrd.yaml"]
    ∧ uniqueBaseNamesForPaths (some [lit "/aws/xrd.yaml", lit "/gcp/xrd.yaml"])
        = some [lit "xrd.yaml", lit "xrd_1.yaml"]
    ∧ uniqueBaseNamesForPaths (some [lit "/path/to/crds", lit "/another/path/to/crds"])
        = some [lit "crds", lit "crds_1"]
    ∧ uniqueBaseNamesForPaths (some [lit "/a/xrd.yaml", lit "/b/xrd.yaml", lit "/c/xrd.yaml"])
        = some [lit "xrd.yaml", lit "xrd_1.yaml", lit "xrd_2.yaml"]
    ∧ uniqueBaseNamesForPaths (some [lit "/a/one.yaml", lit "/b/two.yaml"])
        = some [lit "one.yaml", lit "two.yaml"] := by
  decide

set_option maxRecDepth 8000 in
/-- The test "fail when files differ" of `TestExecuteDiffAssertions`: golden `expected\n`
against render `actual\n` gives one Fail result whose message is the unified diff below; it
contains `--- `, `+++ `, `expected` and `actual`. -/
theorem test_executeAssertionsDiff_fail :
    executeAssertionsDiff id (testExecutor (lit "expected\n") (lit "actual\n") false)
        [⟨lit "should differ", lit "golden.yaml", []⟩]
      = [⟨lit "should differ", .Fail,
          lit "--- golden.yaml\n+++ render.yaml\n@@ -1,2 +1,2 @@\n-expected\n+actual\n \n"⟩]
    ∧ stringsContains
        (lit "--- golden.yaml\n+++ render.yaml\n@@ -1,2 +1,2 @@\n-expected\n+actual\n \n")
        (lit "--- ")
    ∧ stringsContains
        (lit "--- golden.yaml\n+++ render.yaml\n@@ -1,2 +1,2 @@\n-expected\n+actual\n \n")
        (lit "+++ ")
    ∧ stringsContains
        (lit "--- golden.yaml\n+++ render.yaml\n@@ -1,2 +1,2 @@\n-expected\n+actual\n \n")
        (lit "expected")
    ∧ stringsContains
        (lit "--- golden.yaml\n+++ render.yaml\n@@ -1,2 +1,2 @@\n-expected\n+actual\n \n")
        (lit "actual") := by
  decide

/-- The test "actual from resource when resource set" of `TestExecuteDiffAssertions`: the
selector `Pod/foo` is in the per-resource index and its file equals the golden file, so the
one result is Pass. -/
theorem test_executeAssertionsDiff_resource :
    executeAssertionsDiff id
        (newAssertionExecutor
          (memFs [(lit "/suite/golden-pod.yaml", lit "apiVersion: v1\nkind: Pod\n"),
            (lit "/out/Pod_foo.yaml", lit "apiVersion: v1\nkind: Pod\n")])
          ⟨lit "/out/render.yaml", [(lit "Pod/foo", lit "/out/Pod_foo.yaml")]⟩ false
          (lit "/suite/test.yaml") suiteExpand false)
        [⟨lit "pod matches", lit "golden-pod.yaml", lit "Pod/foo"⟩]
      = [⟨lit "pod matches", .Pass, lit "files match"⟩] := by
  decide

/-! ## Colorization as a line-by-line wrapping -/

theorem colorizeLine_cases (l : GoString) :
    colorizeLine l = l ∨ ∃ code ∈ lineCodes, colorizeLine l = code ++ l ++ ansiReset := by
  unfold colorizeLine lineCodes
  split
  · exact Or.inr ⟨ansiBold, by simp, rfl⟩
  · split
    · exact Or.inr ⟨ansiCyan, by simp, rfl⟩
    · split
      · exact Or.inr ⟨ansiRed, by simp, rfl⟩
      · split
        · exact Or.inr ⟨ansiGreen, by simp, rfl⟩
        · exact Or.inl rfl

theorem colorizeLine_hunk (l : GoString) (h : lit "@@" <+: l) :
    colorizeLine l = ansiCyan ++ l ++ ansiReset := by
  obtain ⟨t, rfl⟩ := h
  have e0 : lit "@@" = [64, 64] := by decide
  have e1 : lit "--- " = [45, 45, 45, 32] := by decide
  have e2 : lit "+++ " = [43, 43, 43, 32] := by decide
  unfold colorizeLine
  rw [e0, e1, e2]
  simp [stringsHasPrefix, List.isPrefixOf]

theorem hasLine_colorize_hunk (out : GoString) (h : HasLine out (lit "@@")) :
    HasLine (colorizeUnifiedDiff out) (ansiCyan ++ lit "@@") := by
  obtain ⟨l, hl, hp⟩ := h
  refine ⟨colorizeLine l, ?_, ?_⟩
  · rw [stringsSplit_colorize]
    exact List.mem_map_of_mem _ hl
  · rw [colorizeLine_hunk l hp]
    obtain ⟨t, ht⟩ := hp
    exact ⟨t ++ ansiReset, by rw [← ht]; simp⟩

/-- C11: colorization is a line-by-line wrapping applied after the diff text is generated.
`formatDiffMessageUnified` with colorize on is `colorizeUnifiedDiff` of its output with
colorize off; for every text `s`, `colorizeUnifiedDiff s` has as many lines as `s`, and its
i-th line is the i-th line of `s` unchanged or one of the four SGR codes, the unchanged
line and the reset code, so that dropping the code and the reset gives the line back; `s`
is its lines joined by newlines, and so is the coloured text. -/
theorem colorize_is_linewise_wrapping (expectedPath actualPath : GoString)
    (expected actual : List UInt8) (s : GoString) :
    formatDiffMessageUnified expectedPath actualPath expected actual true
      = colorizeUnifiedDiff
          (formatDiffMessageUnified expectedPath actualPath expected actual false)
    ∧ (stringsSplit nl (colorizeUnifiedDiff s)).length = (stringsSplit nl s).length
    ∧ (∀ (i : Nat) (l : GoString), (stringsSplit nl s)[i]? = some l →
        ∃ l', (stringsSplit nl (colorizeUnifiedDiff s))[i]? = some l'
          ∧ (l' = l ∨ ∃ code ∈ lineCodes, l' = code ++ l ++ ansiReset
              ∧ (l'.drop code.length).take l.length = l))
    ∧ stringsJoin nl (stringsSplit nl s) = s
    ∧ stringsJoin nl (stringsSplit nl (colorizeUnifiedDiff s)) = colorizeUnifiedDiff s := by
  refine ⟨?_, ?_, ?_, stringsJoin_split nl s, stringsJoin_split nl _⟩
  · simp [formatDiffMessageUnified_eq]
  · rw [stringsSplit_colorize, List.length_map]
  · intro i l hl
    refine ⟨colorizeLine l, ?_, ?_⟩
    · rw [stringsSplit_colorize, List.getElem?_map, hl]; rfl
    · rcases colorizeLine_cases l with h | ⟨code, hc, h⟩
      · exact Or.inl h
      · refine Or.inr ⟨code, hc, h, ?_⟩
        rw [h, List.append_assoc, List.drop_left, List.take_left]

/-! ## The structural-diff adapter -/

/-- C16: when the files of a structural assertion resolve, parse and compare without error,
the result of `executeAssertionsDyff` is Pass with message "files match" exactly when the diff
report has no entries; otherwise it is Fail with the report writer's output as the message,
byte for byte, or Error with message `dyff report: <cause>` when the writer fails. -/
theorem executeAssertionsDyff_report {Docs Diff : Type} (lib : DyffLib Docs Diff)
    (quote : GoString → GoString) (e : assertionExecutor) (a : AssertionGoldenFile)
    (g : GoldenFiles) (fromDocs toDocs : Docs) (report : Report Docs Diff)
    (hres : (resolveAndReadGoldenFile quote e a).2 = .ok g)
    (hfrom : lib.LoadDocuments g.expectedBytes = .ok fromDocs)
    (hto : lib.LoadDocuments g.actualBytes = .ok toDocs)
    (hcmp : lib.CompareInputFiles ⟨g.expectedPath, fromDocs⟩ ⟨g.actualPath, toDocs⟩
      = .ok report) :
    (executeAssertionsDyff lib quote e [a] = [⟨a.Name, .Pass, lit "files match"⟩]
        ↔ report.Diffs.length = 0)
    ∧ (∀ r ∈ executeAssertionsDyff lib quote e [a], r.Status = .Pass ↔ report.Diffs.length = 0)
    ∧ (∀ buf, report.Diffs.length ≠ 0 → lib.WriteReport report = .ok buf →
        executeAssertionsDyff lib quote e [a] = [⟨a.Name, .Fail, buf⟩])
    ∧ (∀ cause, report.Diffs.length ≠ 0 → lib.WriteReport report = .error cause →
        executeAssertionsDyff lib quote e [a]
          = [⟨a.Name, .Error, lit "dyff report: " ++ cause⟩]) := by
  by_cases hd : report.Diffs.length = 0
  · simp [executeAssertionsDyff_eq_map, dyffAssertion, hres, hfrom, hto, hcmp, hd,
      NewAssertionResult]
  · cases hw : lib.WriteReport report with
    | error cause =>
      simp [executeAssertionsDyff_eq_map, dyffAssertion, hres, hfrom, hto, hcmp, hd, hw,
        NewAssertionResult]
    | ok buf =>
      simp [executeAssertionsDyff_eq_map, dyffAssertion, hres, hfrom, hto, hcmp, hd, hw,
        NewAssertionResult]

/-- C16, at golden `a: 1` against render `a: 2` with a report of one entry: the result is
Fail and its message is the writer's output, leading newline and trailing blanks kept. -/
theorem executeAssertionsDyff_report_witness :
    executeAssertionsDyff testDyffLib id (testExecutor (lit "a: 1\n") (lit "a: 2\n") false)
        [testAssertion]
      = [⟨testAssertion.Name, .Fail, lit "\nreport\n  "⟩] :=
  (executeAssertionsDyff_report testDyffLib id
    (testExecutor (lit "a: 1\n") (lit "a: 2\n") false) testAssertion
    ⟨lit "/suite/golden.yaml", lit "/out/render.yaml", lit "a: 1\n", lit "a: 2\n"⟩
    (lit "a: 1\n") (lit "a: 2\n")
    ⟨⟨lit "/suite/golden.yaml", lit "a: 1\n"⟩, ⟨lit "/out/render.yaml", lit "a: 2\n"⟩, [()]⟩
    rfl rfl rfl rfl).2.2.1 (lit "\nreport\n  ") (by decide) rfl

/-! ## No dim code is added -/

theorem pre_append_cases (p a b : GoString) (h : p <+: a ++ b) :
    p <+: a ∨ ∃ t, p = a ++ t ∧ t <+: b := by
  induction a generalizing p with
  | nil => exact Or.inr ⟨p, rfl, by simpa using h⟩
  | cons c a ih =>
    cases p with
    | nil => exact Or.inl List.nil_prefix
    | cons d p =>
      rw [List.cons_append, List.cons_prefix_cons] at h
      obtain ⟨hd, hp⟩ := h
      subst hd
      rcases ih p hp with h1 | ⟨t, h1, h2⟩
      · exact Or.inl (List.cons_prefix_cons.mpr ⟨rfl, h1⟩)
      · exact Or.inr ⟨t, by rw [h1]; rfl, h2⟩

theorem suffix_append_cases (u x y : GoString) (h : u <:+ x ++ y) :
    u <:+ y ∨ ∃ s, s <:+ x ∧ u = s ++ y := by
  induction x with
  | nil => exact Or.inl (by simpa using h)
  | cons c x ih =>
    rw [List.cons_append, List.suffix_cons_iff] at h
    rcases h with h | h
    · exact Or.inr ⟨c :: x, List.suffix_refl _, by rw [h]; rfl⟩
    · rcases ih h with h1 | ⟨s, h1, h2⟩
      · exact Or.inl h1
      · exact Or.inr ⟨s, h1.trans (List.suffix_cons c x), h2⟩

/-- An occurrence of `p` in `x ++ y` lies in `x`, lies in `y`, or straddles the seam: a
non-empty end of `x` followed by a non-empty start of `y`. -/
theorem infix_append_cases (p x y : GoString) (h : p <:+: x ++ y) :
    p <:+: x ∨ p <:+: y
    ∨ ∃ s t, s ≠ [] ∧ t ≠ [] ∧ p = s ++ t ∧ s <:+ x ∧ t <+: y := by
  obtain ⟨u, hp, hu⟩ := List.infix_iff_prefix_suffix.mp h
  rcases suffix_append_cases u x y hu with h1 | ⟨s, h1, h2⟩
  · exact Or.inr (Or.inl (hp.isInfix.trans h1.isInfix))
  · subst h2
    rcases pre_append_cases p s y hp with h3 | ⟨t, h3, h4⟩
    · exact Or.inl (h3.isInfix.trans h1.isInfix)
    · by_cases hs : s = []
      · subst hs
        exact Or.inr (Or.inl (by rw [h3]; simpa using h4.isInfix))
      · by_cases ht : t = []
        · subst ht
          exact Or.inl (by rw [h3]; simpa using h1.isInfix)
        · exact Or.inr (Or.inr ⟨s, t, hs, ht, h3, h1, h4⟩)

/-- The ways to cut the dim code into a non-empty start and a non-empty rest: the start begins
with the escape byte and has at most three bytes, the rest begins with neither the escape
byte nor a newline. -/
theorem dim_cut (s t : GoString) (hs : s ≠ []) (ht : t ≠ []) (h : ansiDim = s ++ t) :
    s.head? = some esc ∧ s.length ≤ 3 ∧ t.head? ≠ some esc ∧ t.head? ≠ some nl := by
  have e : ansiDim = [27, 91, 50, 109] := by decide
  rw [e] at h
  rcases s with _ | ⟨a, s⟩
  · exact absurd rfl hs
  · simp only [List.cons_append, List.cons.injEq] at h
    obtain ⟨ha, h⟩ := h
    subst ha
    rcases s with _ | ⟨b, s⟩
    · simp only [List.nil_append] at h
      subst h
      decide
    · simp only [List.cons_append, List.cons.injEq] at h
      obtain ⟨hb, h⟩ := h
      subst hb
      rcases s with _ | ⟨c, s⟩
      · simp only [List.nil_append] at h
        subst h
        decide
      · simp only [List.cons_append, List.cons.injEq] at h
        obtain ⟨hc, h⟩ := h
        subst hc
        rcases s with _ | ⟨d, s⟩
        · simp only [List.nil_append] at h
          subst h
          decide
        · simp only [List.cons_append, List.cons.injEq] at h
          obtain ⟨_, h⟩ := h
          have := List.append_eq_nil.mp h.symm
          exact absurd this.2 ht

theorem isCode_of_mem (c : GoString) (h : c ∈ lineCodes ∨ c = ansiReset) : IsCode c := by
  have hb : IsCode ansiBold := ⟨lit "[1m", by decide, by decide, by decide, by decide⟩
  have hc : IsCode ansiCyan := ⟨lit "[36m", by decide, by decide, by decide, by decide⟩
  have hr : IsCode ansiRed := ⟨lit "[31m", by decide, by decide, by decide, by decide⟩
  have hg : IsCode ansiGreen := ⟨lit "[32m", by decide, by decide, by decide, by decide⟩
  have h0 : IsCode ansiReset := ⟨lit "[0m", by decide, by decide, by decide, by decide⟩
  rcases h with h | h
  · simp only [lineCodes, List.mem_cons, List.mem_singleton, List.not_mem_nil, or_false] at h
    rcases h with h | h | h | h <;> subst h <;> assumption
  · subst h; exact h0

/-- The dim code does not occur in a code of the source followed by a text, unless it occurs
in the text. -/
theorem dim_in_code_append (c x : GoString) (hc : IsCode c) (h : ansiDim <:+: c ++ x) :
    ansiDim <:+: x := by
  obtain ⟨tl, rfl, h1, h2, h3⟩ := hc
  rcases infix_append_cases _ _ _ h with h | h | ⟨s, t, hs, ht, hst, hsuf, _⟩
  · exact absurd h h3
  · exact h
  · exfalso
    obtain ⟨d1, d2, _, _⟩ := dim_cut s t hs ht hst
    rcases List.suffix_cons_iff.mp hsuf with h4 | h4
    · rw [h4] at d2
      simp only [List.length_cons] at d2
      omega
    · rcases s with _ | ⟨a, s⟩
      · exact hs rfl
      · simp only [List.head?_cons, Option.some.injEq] at d1
        subst d1
        exact h1 (h4.subset (List.mem_cons_self _ _))

/-- The dim code occurs in a coloured line followed by the rest of the text (empty, or
beginning with a newline) only if it occurs in the line itself or in the rest. -/
theorem dim_in_colorizeLine_append (l R : GoString) (hR : R = [] ∨ R.head? = some nl)
    (h : ansiDim <:+: colorizeLine l ++ R) : ansiDim <:+: l ∨ ansiDim <:+: R := by
  have seam : ∀ x y : GoString, (y = [] ∨ y.head? = some nl ∨ y.head? = some esc) →
      ansiDim <:+: x ++ y → ansiDim <:+: x ∨ ansiDim <:+: y := by
    intro x y hy hxy
    rcases infix_append_cases _ _ _ hxy with h | h | ⟨s, t, hs, ht, hst, _, hpre⟩
    · exact Or.inl h
    · exact Or.inr h
    · exfalso
      obtain ⟨_, _, d3, d4⟩ := dim_cut s t hs ht hst
      rcases t with _ | ⟨a, t⟩
      · exact ht rfl
      · rcases y with _ | ⟨b, y⟩
        · simp at hpre
        · rw [List.cons_prefix_cons] at hpre
          obtain ⟨hab, _⟩ := hpre
          subst hab
          rcases hy with hy | hy | hy
          · cases hy
          · exact d4 hy
          · exact d3 hy
  rcases colorizeLine_cases l with hl | ⟨code, hcode, hl⟩
  · rw [hl] at h
    exact seam l R (by tauto) h
  · rw [hl, List.append_assoc, List.append_assoc] at h
    have h1 := dim_in_code_append code _ (isCode_of_mem code (Or.inl hcode)) h
    have hreset : (ansiReset ++ R).head? = some esc := by
      have e : ansiReset = esc :: lit "[0m" := by decide
      rw [e]; rfl
    rcases seam l (ansiReset ++ R) (Or.inr (Or.inr hreset)) h1 with h2 | h2
    · exact Or.inl h2
    · exact Or.inr (dim_in_code_append ansiReset R (isCode_of_mem _ (Or.inr rfl)) h2)

theorem dim_in_join_colorize (ls : List GoString)
    (h : ansiDim <:+: stringsJoin nl (ls.map colorizeLine)) : ∃ l ∈ ls, ansiDim <:+: l := by
  induction ls with
  | nil =>
    exfalso
    revert h
    simp only [List.map_nil, stringsJoin]
    decide
  | cons l rest ih =>
    cases rest with
    | nil =>
      simp only [List.map_cons, List.map_nil, stringsJoin] at h
      have h2 : ansiDim <:+: colorizeLine l ++ [] := by simpa using h
      rcases dim_in_colorizeLine_append l [] (Or.inl rfl) h2 with h1 | h1
      · exact ⟨l, by simp, h1⟩
      · exfalso; revert h1; decide
    | cons l2 rest =>
      simp only [List.map_cons, stringsJoin] at h
      rcases dim_in_colorizeLine_append l (nl :: _) (Or.inr rfl) h with h1 | h1
      · exact ⟨l, by simp, h1⟩
      · rcases List.infix_cons_iff.mp h1 with h2 | h2
        · exfalso
          have e : ansiDim = esc :: lit "[2m" := by decide
          rw [e, List.cons_prefix_cons] at h2
          exact absurd h2.1 (by decide)
        · obtain ⟨x, hx, hd⟩ := ih (by simpa using h2)
          exact ⟨x, List.mem_cons_of_mem _ hx, hd⟩

/-- Colorization adds no dim code: the dim code occurs in the coloured text only if it occurs
in the text that was coloured. -/
theorem dim_in_colorize (s : GoString) (h : stringsContains (colorizeUnifiedDiff s) ansiDim) :
    stringsContains s ansiDim := by
  obtain ⟨l, hl, hd⟩ := dim_in_join_colorize _ h
  have h1 := mem_stringsJoin_infix nl _ l hl
  rw [stringsJoin_split] at h1
  exact hd.trans h1

theorem colorizeLine_other (l : GoString) (h1 : ¬ lit "--- " <+: l) (h2 : ¬ lit "+++ " <+: l)
    (h3 : ¬ lit "@@" <+: l) (h4 : l.head? ≠ some 45) (h5 : l.head? ≠ some 43) :
    colorizeLine l = l := by
  unfold colorizeLine
  have p1 : stringsHasPrefix l (lit "--- ") = false :=
    Bool.eq_false_iff.mpr (fun hh => h1 (List.isPrefixOf_iff_prefix.mp hh))
  have p2 : stringsHasPrefix l (lit "+++ ") = false :=
    Bool.eq_false_iff.mpr (fun hh => h2 (List.isPrefixOf_iff_prefix.mp hh))
  have p3 : stringsHasPrefix l (lit "@@") = false :=
    Bool.eq_false_iff.mpr (fun hh => h3 (List.isPrefixOf_iff_prefix.mp hh))
  simp [p1, p2, p3, h4, h5]

/-! ## The palette of the coloured diff -/

set_option maxRecDepth 8000 in
/-- C12: a removed line is not wrapped in red whatever its content.  For golden `-- a\n`
against render `b\n` the removed line is written `--- a`, which the switch of
`colorizeUnifiedDiff` takes for a file header: it is wrapped in bold, and the message holds
no red code at all.  Likewise the added line of render `++ b\n` is wrapped in bold, not
green. -/
theorem removed_line_like_header_is_bold :
    executeAssertionsDiff id (testExecutor (lit "-- a\n") (lit "b\n") true) [testAssertion]
      = [⟨testAssertion.Name, .Fail,
          lit ("\x1b[1m--- golden.yaml\x1b[0m\n\x1b[1m+++ render.yaml\x1b[0m\n"
            ++ "\x1b[36m@@ -1,2 +1,2 @@\x1b[0m\n\x1b[1m--- a\x1b[0m\n\x1b[32m+b\x1b[0m\n \n")⟩]
    ∧ ¬ stringsContains
        (formatDiffMessageUnified (lit "/suite/golden.yaml") (lit "/out/render.yaml")
          (lit "-- a\n") (lit "b\n") true) ansiRed
    ∧ executeAssertionsDiff id (testExecutor (lit "-- a\n") (lit "++ b\n") true)
        [testAssertion]
      = [⟨testAssertion.Name, .Fail,
          lit ("\x1b[1m--- golden.yaml\x1b[0m\n\x1b[1m+++ render.yaml\x1b[0m\n"
            ++ "\x1b[36m@@ -1,2 +1,2 @@\x1b[0m\n\x1b[1m--- a\x1b[0m\n\x1b[1m+++ b\x1b[0m\n \n")⟩]
    ∧ ¬ stringsContains
        (formatDiffMessageUnified (lit "/suite/golden.yaml") (lit "/out/render.yaml")
          (lit "-- a\n") (lit "++ b\n") true) ansiGreen := by
  decide

set_option maxRecDepth 8000 in
/-- C13: the fallback labels are never used.  `filepath.Base` returns `.` for the empty
path, so for an empty expected and an empty actual path the header lines read `--- .` and
`+++ .`, not `--- expected` and `+++ actual`; run through `executeAssertionsDiff` with an
empty expected path the header reads `--- .`. -/
theorem empty_path_label_is_dot :
    formatDiffMessageUnified [] [] (lit "a\n") (lit "b\n") false
      = lit "--- .\n+++ .\n@@ -1,2 +1,2 @@\n-a\n+b\n \n"
    ∧ executeAssertionsDiff id
        (newAssertionExecutor (memFs [([], lit "a\n"), (lit "/out/render.yaml", lit "b\n")])
          ⟨lit "/out/render.yaml", []⟩ false (lit "/suite/test.yaml") suiteExpand false)
        [⟨lit "diff", [], []⟩]
      = [⟨lit "diff", .Fail, lit "--- .\n+++ render.yaml\n@@ -1,2 +1,2 @@\n-a\n+b\n \n"⟩]
    ∧ ¬ stringsContains (formatDiffMessageUnified [] [] (lit "a\n") (lit "b\n") false)
        (lit "expected")
    ∧ ¬ stringsContains (formatDiffMessageUnified [] [] (lit "a\n") (lit "b\n") false)
        (lit "actual") := by
  decide

set_option maxRecDepth 8000 in
/-- C17 as stated fails: for golden `a\n` against render `b\n` with colorize on, the file
header lines are wrapped in bold, not cyan, the hunk header line is wrapped in cyan, and
the dim code occurs nowhere in the message. -/
theorem headers_bold_hunks_cyan_not_dim :
    ¬ HasLine (formatDiffMessageUnified (lit "/suite/golden.yaml") (lit "/out/render.yaml")
        (lit "a\n") (lit "b\n") true) (ansiCyan ++ lit "--- ")
    ∧ ¬ HasLine (formatDiffMessageUnified (lit "/suite/golden.yaml") (lit "/out/render.yaml")
        (lit "a\n") (lit "b\n") true) (ansiCyan ++ lit "+++ ")
    ∧ ¬ HasLine (formatDiffMessageUnified (lit "/suite/golden.yaml") (lit "/out/render.yaml")
        (lit "a\n") (lit "b\n") true) (ansiDim ++ lit "@@")
    ∧ ¬ stringsContains (formatDiffMessageUnified (lit "/suite/golden.yaml")
        (lit "/out/render.yaml") (lit "a\n") (lit "b\n") true) ansiDim
    ∧ formatDiffMessageUnified (lit "/suite/golden.yaml") (lit "/out/render.yaml")
        (lit "a\n") (lit "b\n") true
      = lit ("\x1b[1m--- golden.yaml\x1b[0m\n\x1b[1m+++ render.yaml\x1b[0m\n"
          ++ "\x1b[36m@@ -1,2 +1,2 @@\x1b[0m\n\x1b[31m-a\x1b[0m\n\x1b[32m+b\x1b[0m\n \n") := by
  decide

/-- C17, amended: when colorize is true and the contents differ, the lines of the message are
the lines of the uncoloured diff passed through the switch of `colorizeUnifiedDiff`: a line
beginning `--- ` or `+++ ` is wrapped in bold, a line beginning `@@` in cyan, any other line
beginning `-` in red and any other line beginning `+` in green, each followed by the reset
code; the message has the two file header lines in bold and a hunk header line in cyan.  No
dim code is used: every line of no such class is left unchanged, so each line of the message
is the diff line itself or one of the four codes (none of them the dim code), the line and
the reset code; the dim code occurs in the message only if it occurs in the uncoloured diff
text, and not at all when neither the contents nor the paths hold the escape byte. -/
theorem formatDiffMessageUnified_palette (expectedPath actualPath : GoString)
    (expected actual : List UInt8) (hne : expected ≠ actual) :
    stringsSplit nl (formatDiffMessageUnified expectedPath actualPath expected actual true)
      = (stringsSplit nl (plainDiff expectedPath actualPath expected actual)).map colorizeLine
    ∧ (∀ l, (lit "--- " <+: l ∨ lit "+++ " <+: l) →
        colorizeLine l = ansiBold ++ l ++ ansiReset)
    ∧ (∀ l, lit "@@" <+: l → colorizeLine l = ansiCyan ++ l ++ ansiReset)
    ∧ (∀ l, l.head? = some 45 → ¬ lit "--- " <+: l →
        colorizeLine l = ansiRed ++ l ++ ansiReset)
    ∧ (∀ l, l.head? = some 43 → ¬ lit "+++ " <+: l →
        colorizeLine l = ansiGreen ++ l ++ ansiReset)
    ∧ HasLine (formatDiffMessageUnified expectedPath actualPath expected actual true)
        (ansiBold ++ lit "--- ")
    ∧ HasLine (formatDiffMessageUnified expectedPath actualPath expected actual true)
        (ansiBold ++ lit "+++ ")
    ∧ HasLine (formatDiffMessageUnified expectedPath actualPath expected actual true)
        (ansiCyan ++ lit "@@")
    ∧ (∀ l, ¬ lit "--- " <+: l → ¬ lit "+++ " <+: l → ¬ lit "@@" <+: l →
        l.head? ≠ some 45 → l.head? ≠ some 43 → colorizeLine l = l)
    ∧ (∀ l, colorizeLine l = l
        ∨ ∃ code ∈ lineCodes, colorizeLine l = code ++ l ++ ansiReset)
    ∧ ansiDim ∉ lineCodes
    ∧ ansiDim ≠ ansiReset
    ∧ (stringsContains
          (formatDiffMessageUnified expectedPath actualPath expected actual true) ansiDim →
        stringsContains (plainDiff expectedPath actualPath expected actual) ansiDim)
    ∧ (esc ∉ expectedPath → esc ∉ actualPath → esc ∉ expected → esc ∉ actual →
        ¬ stringsContains
            (formatDiffMessageUnified expectedPath actualPath expected actual true)
            ansiDim) := by
  obtain ⟨h1, h2, h3⟩ := plainDiff_lines expectedPath actualPath expected actual hne
  simp only [formatDiffMessageUnified_eq, if_true]
  refine ⟨stringsSplit_colorize _, colorizeLine_header, colorizeLine_hunk,
    colorizeLine_removed, colorizeLine_added, hasLine_colorize _ _ (Or.inl rfl) h1,
    hasLine_colorize _ _ (Or.inr rfl) h2, hasLine_colorize_hunk _ h3, colorizeLine_other,
    colorizeLine_cases, by decide, by decide, dim_in_colorize _, ?_⟩
  intro e1 e2 e3 e4 hd
  exact not_contains_of_esc_not_mem _ ansiDim (by decide)
    (esc_not_mem_plainDiff expectedPath actualPath expected actual e1 e2 e3 e4)
    (dim_in_colorize _ hd)

/-- C17, amended, at golden `a\n` against render `b\n`: the message has a bold `--- ` line,
a bold `+++ ` line and a cyan `@@` line, and the dim code occurs nowhere in it. -/
theorem formatDiffMessageUnified_palette_witness :
    HasLine (formatDiffMessageUnified (lit "/suite/golden.yaml") (lit "/out/render.yaml")
        (lit "a\n") (lit "b\n") true) (ansiBold ++ lit "--- ")
    ∧ HasLine (formatDiffMessageUnified (lit "/suite/golden.yaml") (lit "/out/render.yaml")
        (lit "a\n") (lit "b\n") true) (ansiBold ++ lit "+++ ")
    ∧ HasLine (formatDiffMessageUnified (lit "/suite/golden.yaml") (lit "/out/render.yaml")
        (lit "a\n") (lit "b\n") true) (ansiCyan ++ lit "@@")
    ∧ ¬ stringsContains (formatDiffMessageUnified (lit "/suite/golden.yaml")
        (lit "/out/render.yaml") (lit "a\n") (lit "b\n") true) ansiDim :=
  have h := formatDiffMessageUnified_palette (lit "/suite/golden.yaml")
    (lit "/out/render.yaml") (lit "a\n") (lit "b\n") (by decide)
  ⟨h.2.2.2.2.2.1, h.2.2.2.2.2.2.1, h.2.2.2.2.2.2.2.1,
    h.2.2.2.2.2.2.2.2.2.2.2.2.2 (by decide) (by decide) (by decide) (by decide)⟩

/-! ## Names of paths with the same stem -/

theorem digitsValue_digitsRev (fuel n : Nat) (h : n < fuel) :
    digitsValue (digitsRev fuel n) = n := by
  have hd : ∀ d, d < 10 → (UInt8.ofNat (48 + d)).toNat - 48 = d := by decide
  induction fuel generalizing n with
  | zero => omega
  | succ fuel ih =>
    unfold digitsRev
    split
    · next hn => simp [digitsValue, hd n hn]
    · next hn =>
      simp only [digitsValue]
      rw [hd (n % 10) (Nat.mod_lt _ (by decide)), ih (n / 10) (by omega)]
      omega

theorem fmtInt_injective (n m : Nat) (h : fmtInt n = fmtInt m) : n = m := by
  unfold fmtInt at h
  have h1 := List.reverse_injective h
  have h2 := congrArg digitsValue h1
  rwa [digitsValue_digitsRev _ _ (Nat.lt_succ_self n),
    digitsValue_digitsRev _ _ (Nat.lt_succ_self m)] at h2

theorem dot_not_mem_digitsRev (fuel n : Nat) : (46 : UInt8) ∉ digitsRev fuel n := by
  have hd : ∀ d, d < 10 → UInt8.ofNat (48 + d) ≠ 46 := by decide
  induction fuel generalizing n with
  | zero => simp [digitsRev]
  | succ fuel ih =>
    unfold digitsRev
    split
    · next h =>
      simp only [List.mem_singleton]
      exact fun hh => hd n h hh.symm
    · simp only [List.mem_cons, not_or]
      exact ⟨fun hh => hd (n % 10) (Nat.mod_lt _ (by decide)) hh.symm, ih _⟩

theorem dot_not_mem_fmtInt (n : Nat) : (46 : UInt8) ∉ fmtInt n := by
  unfold fmtInt
  rw [List.mem_reverse]
  exact dot_not_mem_digitsRev _ _

theorem extLoop_head (rev acc : List UInt8) :
    extLoop rev acc = [] ∨ (extLoop rev acc).head? = some 46 := by
  induction rev generalizing acc with
  | nil => exact Or.inl rfl
  | cons c rev ih =>
    unfold extLoop
    split
    · exact Or.inl rfl
    · split
      · next hc => exact Or.inr (by simp [hc])
      · exact ih _

theorem extOf_head (p : GoString) : extOf p = [] ∨ (extOf p).head? = some 46 :=
  extLoop_head _ _

/-- Two texts made of a run without dots followed by an extension (empty, or starting with
a dot) are equal only if the two runs are equal. -/
theorem append_ext_cancel (x y e f : GoString) (hx : (46 : UInt8) ∉ x) (hy : (46 : UInt8) ∉ y)
    (he : e = [] ∨ e.head? = some 46) (hf : f = [] ∨ f.head? = some 46)
    (h : x ++ e = y ++ f) : x = y := by
  induction x generalizing y with
  | nil =>
    cases y with
    | nil => rfl
    | cons d y =>
      exfalso
      simp only [List.nil_append, List.cons_append] at h
      rcases he with he | he
      · rw [he] at h; cases h
      · rw [h] at he
        simp only [List.head?_cons, Option.some.injEq] at he
        exact hy (by simp [he])
  | cons c x ih =>
    cases y with
    | nil =>
      exfalso
      simp only [List.nil_append, List.cons_append] at h
      rcases hf with hf | hf
      · rw [hf] at h; cases h
      · rw [← h] at hf
        simp only [List.head?_cons, Option.some.injEq] at hf
        exact hx (by simp [hf])
    | cons d y =>
      simp only [List.cons_append, List.cons.injEq] at h
      obtain ⟨h1, h2⟩ := h
      rw [h1, ih y (fun hh => hx (List.mem_cons_of_mem _ hh))
        (fun hh => hy (List.mem_cons_of_mem _ hh)) h2]

theorem earlierSameStem_lt (paths : List GoString) (i j : Nat) (p q : GoString)
    (hij : i < j) (hp : paths[i]? = some p) (hst : stemOf p = stemOf q) :
    earlierSameStem paths i p < earlierSameStem paths j q := by
  unfold earlierSameStem
  rw [hst]
  have hi : i < paths.length := by
    by_contra hc
    rw [List.getElem?_eq_none (by omega)] at hp
    cases hp
  have h1 : paths.take (i + 1) = paths.take i ++ [p] := by
    rw [List.take_succ, hp]; rfl
  have h2 : (paths.take (i + 1)).Sublist (paths.take j) := by
    have : paths.take (i + 1) = (paths.take j).take (i + 1) := by
      rw [List.take_take, Nat.min_eq_left (by omega)]
    rw [this]
    exact List.take_sublist _ _
  have h3 := h2.countP_le (fun x => decide (stemOf x = stemOf q))
  rw [h1, List.countP_append] at h3
  simp only [List.countP_cons, List.countP_nil, hst, decide_True, if_true] at h3
  omega

theorem nameFor_ne_of_lt (p q : GoString) (k m : Nat) (hst : stemOf p = stemOf q)
    (hkm : k < m) : nameFor p k ≠ nameFor q m := by
  have hm : m > 0 := by omega
  intro h
  unfold nameFor at h
  rw [if_pos hm] at h
  by_cases hk : k > 0
  · rw [if_pos hk, hst] at h
    simp only [List.append_assoc, List.append_cancel_left_eq] at h
    have := append_ext_cancel _ _ _ _ (dot_not_mem_fmtInt k) (dot_not_mem_fmtInt m)
      (extOf_head p) (extOf_head q) h
    have := fmtInt_injective _ _ this
    omega
  · rw [if_neg hk, ← stemOf_append_extOf, hst] at h
    simp only [List.append_assoc, List.append_cancel_left_eq] at h
    have e : lit "_" = [95] := by decide
    rw [e] at h
    rcases extOf_head p with he | he
    · rw [he] at h; cases h
    · rw [h] at he
      revert he
      simp only [List.singleton_append, List.head?_cons, Option.some.injEq]
      decide

/-- C18: for every input sequence, two different positions whose base filenames have the same
stem (whatever their extensions) receive different names from `uniqueBaseNamesForPaths`. -/
theorem uniqueBaseNamesForPaths_same_stem_distinct (paths names : List GoString) (i j : Nat)
    (p q : GoString) (hn : uniqueBaseNamesForPaths (some paths) = some names) (hij : i ≠ j)
    (hp : paths[i]? = some p) (hq : paths[j]? = some q) (hst : stemOf p = stemOf q) :
    ∃ ni nj, names[i]? = some ni ∧ names[j]? = some nj ∧ ni ≠ nj := by
  simp only [uniqueBaseNamesForPaths, Option.some.injEq] at hn
  subst hn
  refine ⟨_, _, uniqueBaseNamesLoop_getElem? paths _ i p hp,
    uniqueBaseNamesLoop_getElem? paths _ j q hq, ?_⟩
  simp only [Nat.zero_add]
  rcases Nat.lt_or_gt_of_ne hij with h | h
  · exact nameFor_ne_of_lt p q _ _ hst (earlierSameStem_lt paths i j p q h hp hst)
  · exact fun hh => nameFor_ne_of_lt q p _ _ hst.symm
      (earlierSameStem_lt paths j i q p h hq hst.symm) hh.symm

/-- C18, at `/a/xrd.yaml` and `/b/xrd.txt`, which share the stem `xrd`: the names are
`xrd.yaml` and `xrd_1.txt`. -/
theorem uniqueBaseNamesForPaths_same_stem_distinct_witness :
    ∃ ni nj, [lit "xrd.yaml", lit "xrd_1.txt"][0]? = some ni
      ∧ [lit "xrd.yaml", lit "xrd_1.txt"][1]? = some nj ∧ ni ≠ nj :=
  uniqueBaseNamesForPaths_same_stem_distinct [lit "/a/xrd.yaml", lit "/b/xrd.txt"]
    [lit "xrd.yaml", lit "xrd_1.txt"] 0 1 (lit "/a/xrd.yaml") (lit "/b/xrd.txt")
    (by decide) (by decide) (by decide) (by decide) (by decide)

/-! ## The patch pipeline -/

/-- The error of `CheckConnectionSecret`. -/
theorem checkConnectionSecret_message :
    stringsContains
      (lit ("connection-secret must be set to true when using "
        ++ "connection-secret-name or connection-secret-namespace"))
      (lit "connection-secret must be set to true") := by
  decide

theorem patchXR_of_check_ok {FS Obj Xrd : Type} (lib : PatchLib FS Obj Xrd) (r : Runner FS)
    (xrPath outputPath : GoString) (patches : Patches)
    (h : patches.CheckConnectionSecret = .ok ()) :
    (patchXR lib r xrPath outputPath patches).effects.head? = some (.ReadFile xrPath) := by
  simp only [patchXR, h]
  repeat' (first | rfl | split)

/-- C14: the validation `patchXR` runs first.  When `connectionSecretName` or
`connectionSecretNamespace` is non-empty while `connectionSecret` is unset, validation fails
with a message containing "connection-secret must be set to true", and `patchXR` returns that
error; with `connectionSecret` explicitly true or explicitly false, whatever the name and the
namespace, and for the all-unset config, validation passes and `patchXR` goes on to read the
XR file. -/
theorem checkConnectionSecret_rule {FS Obj Xrd : Type} (lib : PatchLib FS Obj Xrd)
    (r : Runner FS) (xrPath outputPath xrd name ns : GoString) :
    ((name ≠ [] ∨ ns ≠ []) →
      ∃ msg, (Patches.mk xrd none name ns).CheckConnectionSecret = .error msg
        ∧ stringsContains msg (lit "connection-secret must be set to true")
        ∧ (patchXR lib r xrPath outputPath (Patches.mk xrd none name ns)).err = some msg)
    ∧ (∀ b : Bool, (Patches.mk xrd (some b) name ns).CheckConnectionSecret = .ok ()
        ∧ (patchXR lib r xrPath outputPath (Patches.mk xrd (some b) name ns)).effects.head?
            = some (.ReadFile xrPath))
    ∧ (Patches.mk xrd none [] []).CheckConnectionSecret = .ok ()
    ∧ (patchXR lib r xrPath outputPath (Patches.mk xrd none [] [])).effects.head?
        = some (.ReadFile xrPath) := by
  have h2 : ∀ b : Bool, (Patches.mk xrd (some b) name ns).CheckConnectionSecret = .ok () := by
    intro b; simp [Patches.CheckConnectionSecret]
  have h3 : (Patches.mk xrd none [] []).CheckConnectionSecret = .ok () := by
    simp [Patches.CheckConnectionSecret]
  refine ⟨?_, fun b => ⟨h2 b, patchXR_of_check_ok lib r _ _ _ (h2 b)⟩, h3,
    patchXR_of_check_ok lib r _ _ _ h3⟩
  intro h
  have h1 : (Patches.mk xrd none name ns).CheckConnectionSecret
      = .error (lit ("connection-secret must be set to true when using "
        ++ "connection-secret-name or connection-secret-namespace")) := by
    simp only [Patches.CheckConnectionSecret, true_and]
    rw [if_pos h]
  refine ⟨_, h1, checkConnectionSecret_message, ?_⟩
  unfold patchXR
  rw [h1]

/-- C15: `patchXR` is fail-fast on validation.  Whenever `CheckConnectionSecret` fails,
`patchXR` returns the empty path and that very error, the filesystem is the one it was given
and no effect took place: no file read, no default or secret injection, no write, no debug
output; this holds whatever the libraries and the filesystem would have done. -/
theorem patchXR_fail_fast {FS Obj Xrd : Type} (lib : PatchLib FS Obj Xrd) (r : Runner FS)
    (xrPath outputPath : GoString) (patches : Patches) (err : GoString)
    (h : patches.CheckConnectionSecret = .error err) :
    (patchXR lib r xrPath outputPath patches).path = []
    ∧ (patchXR lib r xrPath outputPath patches).err = some err
    ∧ (patchXR lib r xrPath outputPath patches).fs = r.fs
    ∧ (patchXR lib r xrPath outputPath patches).effects = [] := by
  unfold patchXR
  rw [h]
  exact ⟨rfl, rfl, rfl, rfl⟩

/-- C15, at the case "invalid - ConnectionSecretName without ConnectionSecret set" of the
repository's `TestPatchXR`: the filesystem still holds `/xr.yaml` only. -/
theorem patchXR_fail_fast_witness :
    (patchXR testPatchLib testRunner (lit "/xr.yaml") (lit "/output")
        ⟨[], none, lit "my-secret", []⟩).path = []
    ∧ (patchXR testPatchLib testRunner (lit "/xr.yaml") (lit "/output")
        ⟨[], none, lit "my-secret", []⟩).err
      = some (lit ("connection-secret must be set to true when using "
          ++ "connection-secret-name or connection-secret-namespace"))
    ∧ (patchXR testPatchLib testRunner (lit "/xr.yaml") (lit "/output")
        ⟨[], none, lit "my-secret", []⟩).fs = testRunner.fs
    ∧ (patchXR testPatchLib testRunner (lit "/xr.yaml") (lit "/output")
        ⟨[], none, lit "my-secret", []⟩).effects = [] :=
  patchXR_fail_fast testPatchLib testRunner (lit "/xr.yaml") (lit "/output")
    ⟨[], none, lit "my-secret", []⟩ _ rfl

end Runner
